import Mathlib

/-!
Shallow embedding of the content-addressed chunking and distribution core of
the `distributed-file-storage` repository, together with proofs of the
specification's testable properties.

Conventions of the embedding:
* Byte streams and byte slices are `List Nat` (each element a byte value).
* Go's `uint64` arithmetic is `Nat` arithmetic reduced `% 2^64`; the boundary
  test `hash & ((1<<20)-1) == 0` is embedded as `hash % 2^20 == 0`, which is
  the same predicate because the mask keeps exactly the low 20 bits.
* Chunk hashes are drawn from an arbitrary type `H` with decidable equality,
  and the SHA-256 digest function `sha256.Sum256` (+ hex rendering) is a
  parameter `sha : List Nat → H`; theorems that need collision-freeness take
  `Function.Injective sha` as an explicit idealization hypothesis.
* Loops are embedded as fuel-indexed structural recursions; the fuel chosen in
  each wrapper is large enough to cover every iteration the Go loop performs
  (proved where it matters), so `none`/truncation is never observable under
  the theorems' hypotheses.
-/

namespace Chunking

/-- `MinChunkSize` from internal/chunking/rabin.go (2 MiB). -/
def MinChunkSize : Nat := 2 * 1024 * 1024

/-- `MaxChunkSize` from internal/chunking/rabin.go (8 MiB). -/
def MaxChunkSize : Nat := 8 * 1024 * 1024

/-- `targetMask = (1 << 20) - 1` from `findBoundary`. -/
def targetMask : Nat := (1 <<< 20) - 1

/-- `Chunk` from internal/chunking/rabin.go, with the hash type generalized
to `H` (the Go code stores the lowercase-hex SHA-256 string). -/
structure Chunk (H : Type) where
  data : List Nat
  hash : H
  size : Nat
  offset : Nat
deriving DecidableEq

/-- The scanning loop of `findBoundary` (rabin.go lines 115-123):
`for i := MinChunkSize; i < len(data) && i < MaxChunkSize; i++ {
   hash = (hash << 1) + uint64(data[i]); if hash & targetMask == 0 {return i}}`.
One unit of fuel per iteration; `MaxChunkSize - MinChunkSize` units cover the
whole index range, so the fueled loop and the Go loop coincide.  `hash` is a
uint64, hence the `% 2^64`; the mask test is `% 2^20` as explained above. -/
def findBoundaryLoop (data : List Nat) : Nat → Nat → Nat → Option Nat
  | _, _, 0 => none
  | i, hash, fuel + 1 =>
    if i < data.length ∧ i < MaxChunkSize then
      let hash' := (2 * hash + data.getD i 0) % 2 ^ 64
      if hash' % 2 ^ 20 = 0 then some i
      else findBoundaryLoop data (i + 1) hash' fuel
    else none

/-- `findBoundary` from internal/chunking/rabin.go lines 102-130. -/
def findBoundary (data : List Nat) : Nat :=
  if data.length < MinChunkSize then data.length
  else
    match findBoundaryLoop data MinChunkSize 0 (MaxChunkSize - MinChunkSize) with
    | some i => i
    | none => if data.length > MaxChunkSize then MaxChunkSize else data.length

/-- The chunk-size selection of `NextChunk` (rabin.go lines 49-67): the
`io.ReadFull` on the `MaxChunkSize` buffer yields `n = min (length S)
MaxChunkSize` bytes, then `chunkSize := findBoundary(buffer[:n])` is clamped
by `if chunkSize < MinChunkSize && n == MaxChunkSize {chunkSize = Min}` and
`if chunkSize > n {chunkSize = n}`. -/
def chunkLen (S : List Nat) : Nat :=
  let n := min S.length MaxChunkSize
  let cs0 := findBoundary (S.take n)
  let cs1 := if cs0 < MinChunkSize ∧ n = MaxChunkSize then MinChunkSize else cs0
  if cs1 > n then n else cs1

/-- The driving loop of `ChunkFile` (rabin.go lines 148-164) with `NextChunk`
(lines 48-98) inlined: `NextChunk` returns `io.EOF` exactly when the stream is
exhausted (`n == 0`); otherwise it emits `buffer[:chunkSize]` with its hash
and offset, pushes `buffer[chunkSize:n]` back in front of the reader (an
`io.MultiReader`), i.e. continues on `S.drop chunkSize`, and advances
`cr.offset` by `chunkSize`.  Fueled; each chunk consumes ≥ 1 byte, so fuel
`S.length` covers the whole run. -/
def ChunkFileGo (H : Type) (sha : List Nat → H) :
    Nat → Nat → List Nat → List (Chunk H)
  | 0, _, _ => []
  | fuel + 1, offset, S =>
    if S = [] then []
    else
      let cs := chunkLen S
      let data := S.take cs
      Chunk.mk data (sha data) cs offset ::
        ChunkFileGo H sha fuel (offset + cs) (S.drop cs)

/-- `ChunkFile` from internal/chunking/rabin.go. -/
def ChunkFile (H : Type) (sha : List Nat → H) (S : List Nat) : List (Chunk H) :=
  ChunkFileGo H sha S.length 0 S

/-- Cumulative sums of a list of sizes starting from `acc`; used to express
chunk boundary positions. -/
def cumsums : List Nat → Nat → List Nat
  | [], _ => []
  | s :: ss, acc => (acc + s) :: cumsums ss (acc + s)

/-- The boundary positions (cumulative end offsets) of the chunking of `S`. -/
def chunkBoundaries (H : Type) (sha : List Nat → H) (S : List Nat) : List Nat :=
  cumsums ((ChunkFile H sha S).map Chunk.size) 0

end Chunking

namespace Crypto

/-- `KeySize = 32` from internal/crypto/encrypt.go. -/
def KeySize : Nat := 32

/-- `SaltSize = 32` from internal/crypto/encrypt.go. -/
def SaltSize : Nat := 32

/-- `NonceSize = 12` from internal/crypto/encrypt.go (GCM standard). -/
def NonceSize : Nat := 12

/-- `Iterations = 100000` from internal/crypto/encrypt.go. -/
def Iterations : Nat := 100000

/-- `EncryptionKey` from internal/crypto/encrypt.go. -/
structure EncryptionKey where
  key : List Nat
  salt : List Nat
deriving DecidableEq

/-- `aes.NewCipher` (Go standard library) succeeds exactly on 16-, 24- or
32-byte keys; with an AES block `cipher.NewGCM` always succeeds. -/
def aesKeySizeOk (key : List Nat) : Bool :=
  key.length == 16 || key.length == 24 || key.length == 32

/-- `DeriveKey` from internal/crypto/encrypt.go, with PBKDF2-HMAC-SHA256
(`pbkdf2.Key`, an external library) abstracted as a parameter; the random
salt generated when `salt == nil` is supplied by the caller. -/
def DeriveKey (pbkdf2 : String → List Nat → List Nat) (password : String)
    (salt : List Nat) : EncryptionKey :=
  ⟨pbkdf2 password salt, salt⟩

/-- `EncryptChunk` from internal/crypto/encrypt.go lines 51-77.  The GCM seal
primitive (`gcm.Seal`, Go standard library) is a parameter; the CSPRNG nonce
is supplied by the caller.  `gcm.Seal(nonce, nonce, data, nil)` prepends the
nonce to the sealed bytes. -/
def EncryptChunk (gcmSeal : List Nat → List Nat → List Nat → List Nat)
    (nonce : List Nat) (data : List Nat) (k : EncryptionKey) :
    Except String (List Nat) :=
  if aesKeySizeOk k.key then .ok (nonce ++ gcmSeal k.key nonce data)
  else .error "crypto/aes: invalid key size"

/-- `DecryptChunk` from internal/crypto/encrypt.go lines 80-109.  The GCM
open primitive (`gcm.Open`) is a parameter returning `none` on
authentication failure.  The length guard precedes the nonce slicing, as in
the source. -/
def DecryptChunk (gcmOpen : List Nat → List Nat → List Nat → Option (List Nat))
    (ciphertext : List Nat) (k : EncryptionKey) : Except String (List Nat) :=
  if aesKeySizeOk k.key then
    if ciphertext.length < NonceSize then .error "ciphertext too short"
    else
      match gcmOpen k.key (ciphertext.take NonceSize)
          (ciphertext.drop NonceSize) with
      | some plaintext => .ok plaintext
      | none => .error "cipher: message authentication failed"
  else .error "crypto/aes: invalid key size"

end Crypto

namespace Dedup

/-- Association-list lookup; embeds reads of a Go `map`. -/
def alookup {H β : Type} [DecidableEq H] : List (H × β) → H → Option β
  | [], _ => none
  | (k, v) :: rest, h => if k = h then some v else alookup rest h

/-- Association-list update of an existing key; embeds in-place mutation of
a Go map entry (the source mutates through a pointer). -/
def aupdate {H β : Type} [DecidableEq H] : List (H × β) → H → β → List (H × β)
  | [], _, _ => []
  | (k, v) :: rest, h, v' =>
    if k = h then (k, v') :: rest else (k, v) :: aupdate rest h v'

/-- Association-list deletion; embeds `delete(m, k)`. -/
def aerase {H β : Type} [DecidableEq H] : List (H × β) → H → List (H × β)
  | [], _ => []
  | (k, v) :: rest, h => if k = h then rest else (k, v) :: aerase rest h

/-- `ChunkMetadata` from internal/dedup/store.go.  `RefCount` is a Go `int`,
hence `Int` here; `StorePath` is `<base>/<hash[0..2]>/<hash>`, which is an
injective function of the hash, so we record the hash itself as the path. -/
structure ChunkMetadata (H : Type) where
  hash : H
  size : Nat
  refCount : Int
  storePath : H
deriving DecidableEq

/-- `ChunkStore` from internal/dedup/store.go: the in-memory `index` map and
the on-disk chunk files (`disk` maps a store path to the bytes written
there).  The JSON index snapshot (`saveIndex`) only mirrors `index` and is
not modelled. -/
structure ChunkStore (H : Type) where
  index : List (H × ChunkMetadata H)
  disk : List (H × List Nat)
deriving DecidableEq

/-- A freshly created store (`NewChunkStore` on an empty directory). -/
def emptyStore (H : Type) : ChunkStore H := ⟨[], []⟩

/-- `StoreChunk` from internal/dedup/store.go lines 54-90.  `writeFails`
injects an I/O error for the `os.MkdirAll`/`os.WriteFile` calls (both happen
before the index is touched); returns `(chunkPath, isNewChunk)` on
success. -/
def StoreChunk {H : Type} [DecidableEq H] (writeFails : Bool)
    (cs : ChunkStore H) (hash : H) (data : List Nat) :
    Except String (H × Bool) × ChunkStore H :=
  match alookup cs.index hash with
  | some metadata =>
      (.ok (metadata.storePath, false),
        { cs with
          index := aupdate cs.index hash
            { metadata with refCount := metadata.refCount + 1 } })
  | none =>
      if writeFails then (.error "write failed", cs)
      else
        (.ok (hash, true),
          { index := (hash, ⟨hash, data.length, 1, hash⟩) :: cs.index,
            disk := (hash, data) :: cs.disk })

/-- `GetChunk` from internal/dedup/store.go lines 93-108. -/
def GetChunk {H : Type} [DecidableEq H] (cs : ChunkStore H) (hash : H) :
    Except String (List Nat) :=
  match alookup cs.index hash with
  | none => .error "chunk not found"
  | some metadata =>
    match alookup cs.disk metadata.storePath with
    | none => .error "read failed"
    | some data => .ok data

/-- `ReleaseChunk` from internal/dedup/store.go lines 112-133.  The source
decrements `RefCount` through a pointer before attempting `os.Remove`, so a
failed removal (`removeFails`) leaves the decremented entry in the index. -/
def ReleaseChunk {H : Type} [DecidableEq H] (removeFails : Bool)
    (cs : ChunkStore H) (hash : H) : Except String Unit × ChunkStore H :=
  match alookup cs.index hash with
  | none => (.error "chunk not found", cs)
  | some metadata =>
    let md := { metadata with refCount := metadata.refCount - 1 }
    if md.refCount ≤ 0 then
      if removeFails then
        (.error "remove failed", { cs with index := aupdate cs.index hash md })
      else
        (.ok (), { index := aerase cs.index hash,
                   disk := aerase cs.disk md.storePath })
    else (.ok (), { cs with index := aupdate cs.index hash md })

/-- The statistics computed by `GetStats` (internal/dedup/store.go lines
136-162); the floating-point `dedup_ratio` field is not modelled. -/
structure Stats where
  uniqueChunks : Nat
  totalReferences : Int
  storageUsed : Int
  spaceSaved : Int
deriving DecidableEq

/-- `GetStats` from internal/dedup/store.go: note `space_saved` is computed
as `totalSize * (totalRefs - totalChunks)` over the whole index. -/
def GetStats {H : Type} (cs : ChunkStore H) : Stats :=
  let totalChunks := cs.index.length
  let totalSize : Int := (cs.index.map (fun p => (p.2.size : Int))).sum
  let totalRefs : Int := (cs.index.map (fun p => p.2.refCount)).sum
  let savedSpace : Int :=
    if totalRefs > 0 then totalSize * (totalRefs - totalChunks) else 0
  ⟨totalChunks, totalRefs, totalSize, savedSpace⟩

/-- One call against a fixed hash `h`: a `StoreChunk` insert or a
`ReleaseChunk`. -/
inductive StoreOp where
  | insert (data : List Nat)
  | release
deriving DecidableEq

/-- Run a schedule of fault-free `StoreChunk`/`ReleaseChunk` calls on `h`. -/
def runOps {H : Type} [DecidableEq H] (h : H) :
    List StoreOp → ChunkStore H → ChunkStore H
  | [], cs => cs
  | .insert data :: ops, cs => runOps h ops (StoreChunk false cs h data).2
  | .release :: ops, cs => runOps h ops (ReleaseChunk false cs h).2

/-- Number of inserts in a schedule. -/
def insertCount : List StoreOp → Nat
  | [] => 0
  | .insert _ :: ops => insertCount ops + 1
  | .release :: ops => insertCount ops

/-- Number of releases in a schedule. -/
def releaseCount : List StoreOp → Nat
  | [] => 0
  | .insert _ :: ops => releaseCount ops
  | .release :: ops => releaseCount ops + 1

/-- The state of hash `h` inside a store holding `c` live references to it:
at zero credit neither metadata nor bytes exist; at positive credit a single
entry carries exactly `c` as its refcount and the bytes live on disk.  The
`count ≤ 1` components record that `h` keys at most one binding in either
association list (Go maps cannot hold duplicates). -/
def refInv {H : Type} [DecidableEq H] (h : H) (c : Nat) (cs : ChunkStore H) :
    Prop :=
  (cs.index.map Prod.fst).count h ≤ 1 ∧
  (cs.disk.map Prod.fst).count h ≤ 1 ∧
  (c = 0 → alookup cs.index h = none ∧ alookup cs.disk h = none) ∧
  (0 < c → ∃ md d, alookup cs.index h = some md ∧ md.refCount = (c : Int) ∧
    md.storePath = h ∧ alookup cs.disk h = some d)

/-- Store/disk well-formedness maintained by fault-free runs: every indexed
hash stores its own path, and the bytes on disk under that path hash back to
it. -/
def storeConsistent {H : Type} [DecidableEq H] (sha : List Nat → H)
    (cs : ChunkStore H) : Prop :=
  ∀ h md, alookup cs.index h = some md →
    md.storePath = h ∧ ∃ d, alookup cs.disk h = some d ∧ sha d = h

end Dedup

namespace Node

/-- `ConsistentHash` from internal/node/consistent_hash.go.  `circle` is the
Go `map[uint32]string` (reads of missing keys yield `""`), `sortedHashes`
its sorted key list, `nodes` the physical-node key set of `map[string]bool`.
Ring positions are the `uint32` values of `hashKey`, embedded as `Nat`. -/
structure ConsistentHash where
  circle : Nat → String
  sortedHashes : List Nat
  nodes : List String

/-- The node IDs read off the ring in `sortedHashes` order. -/
def ringVisit (ch : ConsistentHash) : List String :=
  ch.sortedHashes.map ch.circle

/-- `sort.Search(len(l), func(i) { return l[i] >= p })`: on an ascending
sorted list this is the number of leading elements `< p`. -/
def searchGE (l : List Nat) (p : Nat) : Nat :=
  (l.takeWhile (fun x => decide (x < p))).length

/-- The collection loop of `GetNodes` (consistent_hash.go lines 124-141):
wrap `idx` past the end, read the node at the current ring slot, append it
when unseen (the `selectedNodes` set is exactly membership in `result`),
advance.  The Go loop's `idx >= len*2` break is unreachable for a nonempty
ring because `idx` is wrapped to `< len` at the top of each iteration, so
the loop runs until `result` is full — or forever; one fuel unit per
iteration, `none` marking a run the Go loop would never complete (or an
index panic on an empty `sortedHashes`). -/
def getNodesLoop (visit : List String) (count : Nat) :
    Nat → Nat → List String → Option (List String)
  | 0, _, result => if count ≤ result.length then some result else none
  | fuel + 1, idx, result =>
    if count ≤ result.length then some result
    else if visit.length = 0 then none
    else
      let idx' := if visit.length ≤ idx then 0 else idx
      let nodeID := visit.getD idx' ""
      let result' := if nodeID ∈ result then result else result ++ [nodeID]
      getNodesLoop visit count fuel (idx' + 1) result'

/-- `GetNodes` from internal/node/consistent_hash.go lines 102-144.  `p` is
the 32-bit value `hashKey(chunkHash)`; we quantify over it directly.  The
fuel passed to the loop exceeds the iterations of any terminating run. -/
def GetNodes (ch : ConsistentHash) (p : Nat) (count0 : Nat) :
    Except String (Option (List String)) :=
  if ch.nodes.length = 0 then .error "no nodes available"
  else
    let count := if ch.nodes.length < count0 then ch.nodes.length else count0
    let start := searchGE ch.sortedHashes p
    .ok (getNodesLoop (ringVisit ch) count
      (2 * ch.sortedHashes.length + count + 1) start [])

/-- The sequence of ring indices the `GetNodes` loop visits, starting at
`idx` with `fuel` iterations left (proof infrastructure mirroring the loop's
index arithmetic). -/
def visitSeq (len : Nat) : Nat → Nat → List Nat
  | _, 0 => []
  | idx, fuel + 1 =>
    let idx2 := if len ≤ idx then 0 else idx
    idx2 :: visitSeq len (idx2 + 1) fuel

/-- `NodeInfo` from internal/node/types.go; `LastSeen` (a `time.Time`) is an
instant on an integer timeline. -/
structure NodeInfo where
  nodeID : String
  address : String
  status : String
  totalChunks : Nat
  lastSeen : Int
  capacity : Int
  used : Int
deriving DecidableEq

/-- The status write performed inside `GetHealthyNodes`. -/
def setStatus (s : String) (n : NodeInfo) : NodeInfo := { n with status := s }

/-- `GetHealthyNodes` from internal/node/registry.go lines 58-76: one pass
over the registry map (modelled as an association list in iteration order);
each node's `Status` is written through its pointer, and the healthy ones
are collected.  Returns the updated registry and the collected slice. -/
def GetHealthyNodes (now timeout : Int) :
    List (String × NodeInfo) → List (String × NodeInfo) × List NodeInfo
  | [] => ([], [])
  | (k, node) :: rest =>
    let r := GetHealthyNodes now timeout rest
    if now - node.lastSeen < timeout then
      ((k, setStatus "healthy" node) :: r.1, setStatus "healthy" node :: r.2)
    else
      ((k, setStatus "offline" node) :: r.1, r.2)

/-- A filesystem entry seen by `filepath.Walk` in `loadExistingChunks`. -/
structure WalkEntry where
  name : String
  isDir : Bool
deriving DecidableEq

/-- `loadExistingChunks` from the storage-node source: admit every
non-directory entry whose name length is 64. -/
def loadExistingChunks (entries : List WalkEntry) : List String :=
  (entries.filter (fun e => !e.isDir && e.name.length == 64)).map WalkEntry.name

/-- The spec's description of the recovery scan, stated verbatim for
comparison: a held chunk is a non-directory entry whose name is a
64-character lowercase-hex string. -/
def specHexName (s : String) : Bool :=
  s.length == 64 && s.toList.all (fun c => c.isDigit || ('a' ≤ c && c ≤ 'f'))

end Node

namespace Pipeline

/-- The fields of the api-server `FileMetadata` that the download path
reads: the chunk hash list (in upload order), the `Encrypted` flag, and the
key-derivation salt recorded at upload. -/
structure FileMetadata (H : Type) where
  chunkHashes : List H
  encrypted : Bool
  salt : List Nat

/-- The per-chunk loop of `uploadHandler` (cmd/api-server/main.go lines
397-432): optionally seal each chunk and recompute its hash over the sealed
bytes, then `StoreChunk` it, collecting the hash list and counting the
chunks newly stored.  `nonces i` is the CSPRNG nonce drawn for chunk `i`;
store writes are fault-free (`writeFails = false`) on this path. -/
def uploadChunks {H : Type} [DecidableEq H] (sha : List Nat → H)
    (gcmSeal : List Nat → List Nat → List Nat → List Nat)
    (key? : Option Crypto.EncryptionKey) (nonces : Nat → List Nat) :
    List (Chunking.Chunk H) → Nat → Dedup.ChunkStore H →
      Except String (List H × Nat × Dedup.ChunkStore H)
  | [], _, cs => .ok ([], 0, cs)
  | c :: rest, i, cs =>
    let sealedStep : Except String (List Nat × H) :=
      match key? with
      | some k =>
        match Crypto.EncryptChunk gcmSeal (nonces i) c.data k with
        | .error e => .error e
        | .ok sealed => .ok (sealed, sha sealed)
      | none => .ok (c.data, c.hash)
    match sealedStep with
    | .error e => .error e
    | .ok (bytes, h) =>
      match Dedup.StoreChunk false cs h bytes with
      | (.error e, _) => .error e
      | (.ok (_, isNew), cs') =>
        match uploadChunks sha gcmSeal key? nonces rest (i + 1) cs' with
        | .error e => .error e
        | .ok (hs, stored, cs'') =>
          .ok (h :: hs, (if isNew then 1 else 0) + stored, cs'')

/-- `uploadHandler` from cmd/api-server/main.go lines 344-477 (the
chunk-processing core): derive a key when a password is given (`salt` is the
CSPRNG salt `DeriveKey` would draw), chunk the stream, run the per-chunk
loop, and record the file metadata.  Returns the metadata and the
`chunks_stored` count of the response. -/
def uploadHandler {H : Type} [DecidableEq H] (sha : List Nat → H)
    (gcmSeal : List Nat → List Nat → List Nat → List Nat)
    (pbkdf2 : String → List Nat → List Nat) (password : String)
    (salt : List Nat) (nonces : Nat → List Nat) (S : List Nat)
    (cs : Dedup.ChunkStore H) :
    Except String (FileMetadata H × Nat × Dedup.ChunkStore H) :=
  let key? := if password = "" then none
    else some (Crypto.DeriveKey pbkdf2 password salt)
  let chunks := Chunking.ChunkFile H sha S
  match uploadChunks sha gcmSeal key? nonces chunks 0 cs with
  | .error e => .error e
  | .ok (hashes, stored, cs') =>
    .ok (⟨hashes, password != "",
      if password = "" then [] else salt⟩, stored, cs')

/-- The per-chunk loop of `downloadHandler` (cmd/api-server/main.go lines
531-554): fetch each chunk from the store, decrypt it when the file is
encrypted, and stream the plaintexts in order. -/
def downloadChunks {H : Type} [DecidableEq H]
    (gcmOpen : List Nat → List Nat → List Nat → Option (List Nat))
    (key? : Option Crypto.EncryptionKey) (cs : Dedup.ChunkStore H) :
    List H → Except String (List Nat)
  | [] => .ok []
  | h :: rest =>
    match Dedup.GetChunk cs h with
    | .error e => .error e
    | .ok bytes =>
      let plainStep : Except String (List Nat) :=
        match key? with
        | some k => Crypto.DecryptChunk gcmOpen bytes k
        | none => .ok bytes
      match plainStep with
      | .error e => .error e
      | .ok plain =>
        match downloadChunks gcmOpen key? cs rest with
        | .error e => .error e
        | .ok tail => .ok (plain ++ tail)

/-- `downloadHandler` from cmd/api-server/main.go lines 479-557: reject an
encrypted file when no password is supplied, re-derive the key from the
stored salt, and reassemble the chunk plaintexts in recorded order. -/
def downloadHandler {H : Type} [DecidableEq H]
    (gcmOpen : List Nat → List Nat → List Nat → Option (List Nat))
    (pbkdf2 : String → List Nat → List Nat) (password : String)
    (meta : FileMetadata H) (cs : Dedup.ChunkStore H) :
    Except String (List Nat) :=
  if meta.encrypted ∧ password = "" then
    .error "Password required for encrypted file"
  else
    let key? := if meta.encrypted then
      some (Crypto.DeriveKey pbkdf2 password meta.salt) else none
    downloadChunks gcmOpen key? cs meta.chunkHashes

end Pipeline

namespace Chunking

theorem minChunkSize_pos : 0 < MinChunkSize := by decide

theorem minChunkSize_lt_max : MinChunkSize < MaxChunkSize := by decide

/-- The loop only ever returns an index at least as large as its start. -/
theorem findBoundaryLoop_ge (data : List Nat) :
    ∀ fuel i hash j, findBoundaryLoop data i hash fuel = some j → i ≤ j := by
  intro fuel
  induction fuel with
  | zero => intro i hash j h; simp [findBoundaryLoop] at h
  | succ fuel ih =>
    intro i hash j h
    unfold findBoundaryLoop at h
    by_cases hc : i < data.length ∧ i < MaxChunkSize
    · simp only [if_pos hc] at h
      by_cases hz : (2 * hash + data.getD i 0) % 2 ^ 64 % 2 ^ 20 = 0
      · simp only [if_pos hz, Option.some.injEq] at h
        omega
      · simp only [if_neg hz] at h
        have := ih (i + 1) _ j h
        omega
    · simp [if_neg hc] at h

/-- The loop only returns indices below the data length and `MaxChunkSize`. -/
theorem findBoundaryLoop_lt (data : List Nat) :
    ∀ fuel i hash j, findBoundaryLoop data i hash fuel = some j →
      j < data.length ∧ j < MaxChunkSize := by
  intro fuel
  induction fuel with
  | zero => intro i hash j h; simp [findBoundaryLoop] at h
  | succ fuel ih =>
    intro i hash j h
    unfold findBoundaryLoop at h
    by_cases hc : i < data.length ∧ i < MaxChunkSize
    · simp only [if_pos hc] at h
      by_cases hz : (2 * hash + data.getD i 0) % 2 ^ 64 % 2 ^ 20 = 0
      · simp only [if_pos hz, Option.some.injEq] at h
        omega
      · simp only [if_neg hz] at h
        exact ih (i + 1) _ j h
    · simp [if_neg hc] at h

/-- `findBoundary` is positive on nonempty data and bounded by the data
length whenever the data fits the read buffer (`length ≤ MaxChunkSize`). -/
theorem findBoundary_pos_le (data : List Nat) (hne : data ≠ [])
    (hlen : data.length ≤ MaxChunkSize) :
    1 ≤ findBoundary data ∧ findBoundary data ≤ data.length := by
  have hpos : 0 < data.length := List.length_pos.mpr hne
  unfold findBoundary
  by_cases hlt : data.length < MinChunkSize
  · simp only [if_pos hlt]
    omega
  · simp only [if_neg hlt]
    split
    · next j hfb =>
      have h1 := findBoundaryLoop_ge data _ _ _ _ hfb
      have h2 := findBoundaryLoop_lt data _ _ _ _ hfb
      have h3 := minChunkSize_pos
      omega
    · next hfb =>
      have hng : ¬ data.length > MaxChunkSize := by omega
      simp only [if_neg hng]
      omega

/-- The chosen chunk size is positive and at most `min (length S)
MaxChunkSize`, so the chunker makes progress and splits the stream exactly. -/
theorem chunkLen_bounds (S : List Nat) (hS : S ≠ []) :
    1 ≤ chunkLen S ∧ chunkLen S ≤ min S.length MaxChunkSize := by
  have hpos : 0 < S.length := List.length_pos.mpr hS
  have hne : S.take (min S.length MaxChunkSize) ≠ [] := by
    simp only [ne_eq, List.take_eq_nil_iff, not_or]
    constructor
    · have := minChunkSize_lt_max
      have := minChunkSize_pos
      omega
    · exact hS
  have htl : (S.take (min S.length MaxChunkSize)).length = min S.length MaxChunkSize := by
    simp only [List.length_take]
    omega
  have hfb := findBoundary_pos_le (S.take (min S.length MaxChunkSize)) hne (by omega)
  rw [htl] at hfb
  have hmcs := minChunkSize_pos
  simp only [chunkLen]
  by_cases h1 : findBoundary (S.take (min S.length MaxChunkSize)) < MinChunkSize ∧
      min S.length MaxChunkSize = MaxChunkSize
  · simp only [if_pos h1]
    by_cases h2 : MinChunkSize > min S.length MaxChunkSize
    · simp only [if_pos h2]; omega
    · simp only [if_neg h2]; omega
  · simp only [if_neg h1]
    by_cases h2 : findBoundary (S.take (min S.length MaxChunkSize)) > min S.length MaxChunkSize
    · simp only [if_pos h2]; omega
    · simp only [if_neg h2]; omega

/-- One-step unfolding on a nonempty stream. -/
theorem chunkFileGo_cons (H : Type) (sha : List Nat → H) (fuel offset : Nat)
    (S : List Nat) (hS : S ≠ []) :
    ChunkFileGo H sha (fuel + 1) offset S =
      Chunk.mk (S.take (chunkLen S)) (sha (S.take (chunkLen S))) (chunkLen S) offset ::
        ChunkFileGo H sha fuel (offset + chunkLen S) (S.drop (chunkLen S)) := by
  simp only [ChunkFileGo, if_neg hS]

/-- Fuel irrelevance: any fuel at least the stream length produces the same
chunk list (each chunk consumes at least one byte). -/
theorem chunkFileGo_fuel_irrel (H : Type) (sha : List Nat → H) :
    ∀ f1 f2 offset S, S.length ≤ f1 → S.length ≤ f2 →
      ChunkFileGo H sha f1 offset S = ChunkFileGo H sha f2 offset S := by
  intro f1
  induction f1 with
  | zero =>
    intro f2 offset S h1 h2
    have : S = [] := List.length_eq_zero.mp (Nat.le_zero.mp h1)
    subst this
    cases f2 with
    | zero => rfl
    | succ f2 => simp [ChunkFileGo]
  | succ f1 ih =>
    intro f2 offset S h1 h2
    by_cases hS : S = []
    · subst hS
      cases f2 with
      | zero => rfl
      | succ f2 => simp [ChunkFileGo]
    · have hpos : 0 < S.length := List.length_pos.mpr hS
      cases f2 with
      | zero => omega
      | succ f2 =>
        rw [chunkFileGo_cons H sha f1 offset S hS,
          chunkFileGo_cons H sha f2 offset S hS]
        have hcb := chunkLen_bounds S hS
        have hdl : (S.drop (chunkLen S)).length ≤ S.length - 1 := by
          simp only [List.length_drop]
          omega
        rw [ih f2 (offset + chunkLen S) (S.drop (chunkLen S)) (by omega) (by omega)]

/-- The starting offset only lands in the `offset` field: data, hashes and
sizes of the emitted chunks do not depend on it. -/
theorem chunkFileGo_offset_irrel (H : Type) (sha : List Nat → H) :
    ∀ fuel off1 off2 S,
      (ChunkFileGo H sha fuel off1 S).map (fun c => (c.data, c.hash, c.size)) =
      (ChunkFileGo H sha fuel off2 S).map (fun c => (c.data, c.hash, c.size)) := by
  intro fuel
  induction fuel with
  | zero => intro off1 off2 S; rfl
  | succ fuel ih =>
    intro off1 off2 S
    by_cases hS : S = []
    · simp [ChunkFileGo, hS]
    · rw [chunkFileGo_cons H sha fuel off1 S hS, chunkFileGo_cons H sha fuel off2 S hS]
      simp only [List.map_cons]
      rw [ih]

/-- Every chunk that `ChunkFileGo` emits carries the hash of its own data,
and its recorded size is its data length. -/
theorem chunkFileGo_shape (H : Type) (sha : List Nat → H) :
    ∀ fuel offset S c, c ∈ ChunkFileGo H sha fuel offset S →
      c.hash = sha c.data ∧ c.size = c.data.length := by
  intro fuel
  induction fuel with
  | zero => intro offset S c h; simp [ChunkFileGo] at h
  | succ fuel ih =>
    intro offset S c h
    by_cases hS : S = []
    · simp [ChunkFileGo, hS] at h
    · rw [chunkFileGo_cons H sha fuel offset S hS] at h
      rcases List.mem_cons.mp h with h | h
      · subst h
        refine ⟨rfl, ?_⟩
        have hcb := chunkLen_bounds S hS
        simp only [List.length_take]
        omega
      · exact ih _ _ _ h

/-- Concatenating the data of the chunks reproduces the stream: the core of
the chunker round-trip, proved over the fueled loop. -/
theorem chunkFileGo_concat (H : Type) (sha : List Nat → H) :
    ∀ fuel offset S, S.length ≤ fuel →
      ((ChunkFileGo H sha fuel offset S).map Chunk.data).flatten = S := by
  intro fuel
  induction fuel with
  | zero =>
    intro offset S h
    have : S = [] := List.length_eq_zero.mp (Nat.le_zero.mp h)
    subst this
    rfl
  | succ fuel ih =>
    intro offset S h
    by_cases hS : S = []
    · subst hS; simp [ChunkFileGo]
    · rw [chunkFileGo_cons H sha fuel offset S hS]
      simp only [List.map_cons, List.flatten_cons]
      have hcb := chunkLen_bounds S hS
      have hpos : 0 < S.length := List.length_pos.mpr hS
      have hdl : (S.drop (chunkLen S)).length ≤ fuel := by
        simp only [List.length_drop]
        omega
      rw [ih (offset + chunkLen S) (S.drop (chunkLen S)) hdl]
      exact List.take_append_drop (chunkLen S) S

/-- Round-trip at the `ChunkFile` level. -/
theorem chunkFile_concat (H : Type) (sha : List Nat → H) (S : List Nat) :
    ((ChunkFile H sha S).map Chunk.data).flatten = S :=
  chunkFileGo_concat H sha S.length 0 S le_rfl

theorem cumsums_shift (ss : List Nat) :
    ∀ acc, cumsums ss acc = (cumsums ss 0).map (acc + ·) := by
  induction ss with
  | nil => intro acc; rfl
  | cons s ss ih =>
    intro acc
    show (acc + s) :: cumsums ss (acc + s) =
      ((0 + s) :: cumsums ss (0 + s)).map (acc + ·)
    rw [List.map_cons]
    refine List.cons_eq_cons.mpr ⟨by omega, ?_⟩
    rw [ih (acc + s), ih (0 + s), List.map_map]
    apply List.map_congr_left
    intro x _
    simp only [Function.comp_apply]
    omega

/-- Recursive characterization of the chunk boundaries of a nonempty
stream: the first boundary is the first chunk's size and the rest are the
boundaries of the remaining stream, shifted. -/
theorem chunkBoundaries_cons (H : Type) (sha : List Nat → H) (S : List Nat)
    (hS : S ≠ []) :
    chunkBoundaries H sha S =
      chunkLen S ::
        (chunkBoundaries H sha (S.drop (chunkLen S))).map (chunkLen S + ·) := by
  have hpos : 0 < S.length := List.length_pos.mpr hS
  have hcb := chunkLen_bounds S hS
  unfold chunkBoundaries ChunkFile
  obtain ⟨m, hL⟩ : ∃ m, S.length = m + 1 := ⟨S.length - 1, by omega⟩
  rw [hL, chunkFileGo_cons H sha m 0 S hS]
  have hsz :
      (ChunkFileGo H sha m (0 + chunkLen S) (S.drop (chunkLen S))).map Chunk.size =
      (ChunkFileGo H sha (S.drop (chunkLen S)).length 0 (S.drop (chunkLen S))).map
        Chunk.size := by
    have hdl : (S.drop (chunkLen S)).length ≤ m := by
      simp only [List.length_drop]
      omega
    rw [chunkFileGo_fuel_irrel H sha m (S.drop (chunkLen S)).length
      (0 + chunkLen S) (S.drop (chunkLen S)) hdl le_rfl]
    have := chunkFileGo_offset_irrel H sha (S.drop (chunkLen S)).length
      (0 + chunkLen S) 0 (S.drop (chunkLen S))
    have h2 := congrArg (List.map (fun p : List Nat × H × Nat => p.2.2)) this
    simpa only [List.map_map, Function.comp] using h2
  simp only [List.map_cons, cumsums, Nat.zero_add]
  simp only [Nat.zero_add] at hsz
  rw [hsz, cumsums_shift]

/-- All boundary positions are positive. -/
theorem chunkBoundaries_pos (H : Type) (sha : List Nat → H) :
    ∀ n S, S.length ≤ n → ∀ b ∈ chunkBoundaries H sha S, 1 ≤ b := by
  intro n
  induction n with
  | zero =>
    intro S h b hb
    have : S = [] := List.length_eq_zero.mp (Nat.le_zero.mp h)
    subst this
    simp [chunkBoundaries, ChunkFile, ChunkFileGo, cumsums] at hb
  | succ n ih =>
    intro S h b hb
    by_cases hS : S = []
    · subst hS
      simp [chunkBoundaries, ChunkFile, ChunkFileGo, cumsums] at hb
    · rw [chunkBoundaries_cons H sha S hS] at hb
      have hcb := chunkLen_bounds S hS
      rcases List.mem_cons.mp hb with hb | hb
      · omega
      · obtain ⟨b', _, hb'⟩ := List.mem_map.mp hb
        omega

/-- Suffix determination: past a known boundary `p`, the boundaries of `S`
are exactly the boundaries of `S.drop p` shifted by `p`.  This is the engine
behind chunker resynchronization. -/
theorem chunkBoundaries_suffix (H : Type) (sha : List Nat → H) :
    ∀ n S p q, S.length ≤ n → p ∈ chunkBoundaries H sha S → p < q →
      (q ∈ chunkBoundaries H sha S ↔
        q - p ∈ chunkBoundaries H sha (S.drop p)) := by
  intro n
  induction n with
  | zero =>
    intro S p q h hp _
    have : S = [] := List.length_eq_zero.mp (Nat.le_zero.mp h)
    subst this
    simp [chunkBoundaries, ChunkFile, ChunkFileGo, cumsums] at hp
  | succ n ih =>
    intro S p q h hp hpq
    by_cases hS : S = []
    · subst hS
      simp [chunkBoundaries, ChunkFile, ChunkFileGo, cumsums] at hp
    · have hcb := chunkLen_bounds S hS
      have hpos : 0 < S.length := List.length_pos.mpr hS
      rw [chunkBoundaries_cons H sha S hS] at hp
      rcases List.mem_cons.mp hp with hp | hp
      · -- p is the first boundary
        subst hp
        rw [chunkBoundaries_cons H sha S hS]
        constructor
        · intro hq
          rcases List.mem_cons.mp hq with hq | hq
          · omega
          · obtain ⟨b', hb', hb'e⟩ := List.mem_map.mp hq
            have : b' = q - chunkLen S := by omega
            rwa [← this]
        · intro hq
          apply List.mem_cons.mpr
          right
          exact List.mem_map.mpr ⟨q - chunkLen S, hq, by omega⟩
      · -- p lies strictly beyond the first boundary; recurse on the suffix
        obtain ⟨p', hp', hp'e⟩ := List.mem_map.mp hp
        have hp'pos : 1 ≤ p' :=
          chunkBoundaries_pos H sha (S.drop (chunkLen S)).length _ le_rfl p' hp'
        have hdl : (S.drop (chunkLen S)).length ≤ n := by
          simp only [List.length_drop]
          omega
        have hih := ih (S.drop (chunkLen S)) p' (q - chunkLen S) hdl hp' (by omega)
        rw [chunkBoundaries_cons H sha S hS]
        have hdd : (S.drop (chunkLen S)).drop p' = S.drop p := by
          rw [List.drop_drop, hp'e]
        rw [hdd] at hih
        constructor
        · intro hq
          rcases List.mem_cons.mp hq with hq | hq
          · omega
          · obtain ⟨b', hb', hb'e⟩ := List.mem_map.mp hq
            have hb'q : b' = q - chunkLen S := by omega
            subst hb'q
            have := hih.mp hb'
            have harith : q - chunkLen S - p' = q - p := by omega
            rwa [harith] at this
        · intro hq
          have harith : q - chunkLen S - p' = q - p := by omega
          have := hih.mpr (by rwa [harith])
          apply List.mem_cons.mpr
          right
          exact List.mem_map.mpr ⟨q - chunkLen S, this, by omega⟩

/-- Resynchronization: if a boundary of `S` at content position `p` is also
a boundary of `b :: S` (at absolute position `p + 1`), then every later
boundary agrees between the two chunkings (shifted by the prepended byte). -/
theorem chunkBoundaries_resync (H : Type) (sha : List Nat → H) (S : List Nat)
    (b : Nat) (p : Nat) (hp : p ∈ chunkBoundaries H sha S)
    (hp' : p + 1 ∈ chunkBoundaries H sha (b :: S)) :
    ∀ q, p < q →
      (q ∈ chunkBoundaries H sha S ↔ q + 1 ∈ chunkBoundaries H sha (b :: S)) := by
  intro q hq
  have h1 := chunkBoundaries_suffix H sha S.length S p q le_rfl hp hq
  have h2 := chunkBoundaries_suffix H sha (b :: S).length (b :: S) (p + 1) (q + 1)
    le_rfl hp' (by omega)
  rw [List.drop_succ_cons] at h2
  have harith : q + 1 - (p + 1) = q - p := by omega
  rw [harith] at h2
  rw [h1, h2]

theorem getD_take (l : List Nat) (n i : Nat) (h : i < n) :
    (l.take n).getD i 0 = l.getD i 0 := by
  simp [List.getD, List.getElem?_take, h]

theorem getD_replicate (m i a : Nat) (h : i < m) :
    (List.replicate m a).getD i 0 = a := by
  simp [List.getD, List.getElem?_replicate, h]

/-- If every byte the scan can reach is odd, the rolling hash
`h ← (2h + byte) mod 2^64` is odd after every step, so its low 20 bits are
never all zero and the loop finds no boundary. -/
theorem findBoundaryLoop_none_of_odd (data : List Nat) :
    ∀ fuel i hash, (∀ j, i ≤ j → j < data.length → data.getD j 0 % 2 = 1) →
      findBoundaryLoop data i hash fuel = none := by
  intro fuel
  induction fuel with
  | zero => intro i hash _; rfl
  | succ fuel ih =>
    intro i hash hodd
    unfold findBoundaryLoop
    by_cases hc : i < data.length ∧ i < MaxChunkSize
    · simp only [if_pos hc]
      have hbyte : data.getD i 0 % 2 = 1 := hodd i le_rfl hc.1
      have h64 : (2:Nat) ^ 64 = 18446744073709551616 := by norm_num
      have h20 : (2:Nat) ^ 20 = 1048576 := by norm_num
      have hob : (2 * hash + data.getD i 0) % 2 ^ 64 % 2 ^ 20 ≠ 0 := by
        rw [h64, h20]
        omega
      simp only [if_neg hob]
      exact ih (i + 1) _ (fun j hj hjl => hodd j (by omega) hjl)
    · simp only [if_neg hc]

/-- On all-odd data that exactly fills the read buffer, `findBoundary`
returns the data length. -/
theorem findBoundary_of_odd (data : List Nat)
    (h1 : ¬ data.length < MinChunkSize) (h2 : data.length ≤ MaxChunkSize)
    (hodd : ∀ j, MinChunkSize ≤ j → j < data.length → data.getD j 0 % 2 = 1) :
    findBoundary data = data.length := by
  unfold findBoundary
  simp only [if_neg h1]
  rw [findBoundaryLoop_none_of_odd data (MaxChunkSize - MinChunkSize)
    MinChunkSize 0 hodd]
  have hng : ¬ data.length > MaxChunkSize := by omega
  simp only [if_neg hng]

/-- A stream shorter than `MinChunkSize` is emitted whole. -/
theorem chunkLen_of_small (S : List Nat) (_h1 : 1 ≤ S.length)
    (h2 : S.length < MinChunkSize) : chunkLen S = S.length := by
  have hmm := minChunkSize_lt_max
  have hn : min S.length MaxChunkSize = S.length := by omega
  simp only [chunkLen, hn]
  rw [List.take_length]
  have hfb : findBoundary S = S.length := by
    unfold findBoundary
    simp only [if_pos h2]
  rw [hfb]
  split_ifs <;> omega

/-- On a long stream whose scannable window holds only odd bytes, the chunk
is cut at exactly `MaxChunkSize`. -/
theorem chunkLen_of_odd_big (S : List Nat) (h1 : MaxChunkSize ≤ S.length)
    (hodd : ∀ j, MinChunkSize ≤ j → j < MaxChunkSize → S.getD j 0 % 2 = 1) :
    chunkLen S = MaxChunkSize := by
  have hmm := minChunkSize_lt_max
  have hn : min S.length MaxChunkSize = MaxChunkSize := by omega
  simp only [chunkLen, hn]
  have hlt : (S.take MaxChunkSize).length = MaxChunkSize := by
    simp only [List.length_take]
    omega
  have hfb : findBoundary (S.take MaxChunkSize) = MaxChunkSize := by
    rw [findBoundary_of_odd (S.take MaxChunkSize) (by omega) (by omega)
      (fun j hj hjl => by
        rw [hlt] at hjl
        rw [getD_take S MaxChunkSize j hjl]
        exact hodd j hj hjl), hlt]
  rw [hfb]
  split_ifs <;> omega

/-- Closed form of the boundaries of an all-`0xFF` stream of length
`k·MaxChunkSize + r` with `1 ≤ r < MinChunkSize`: every chunk is forced to
the maximum size, then the remainder is emitted. -/
theorem chunkBoundaries_replicate_ff (H : Type) (sha : List Nat → H) :
    ∀ k r, 1 ≤ r → r < MinChunkSize →
      chunkBoundaries H sha (List.replicate (k * MaxChunkSize + r) 255) =
        (List.range k).map (fun i => (i + 1) * MaxChunkSize) ++
          [k * MaxChunkSize + r] := by
  intro k
  induction k with
  | zero =>
    intro r hr1 hr2
    simp only [Nat.zero_mul, Nat.zero_add, List.range_zero, List.map_nil,
      List.nil_append]
    have hne : List.replicate r (255:Nat) ≠ [] := by
      simp only [ne_eq, List.replicate_eq_nil_iff]
      omega
    rw [chunkBoundaries_cons H sha _ hne]
    have hcl : chunkLen (List.replicate r (255:Nat)) = r := by
      rw [chunkLen_of_small _ (by simp; omega) (by simp; omega)]
      simp
    rw [hcl, List.drop_replicate]
    have : r - r = 0 := by omega
    rw [this]
    simp [chunkBoundaries, ChunkFile, ChunkFileGo, cumsums]
  | succ k ih =>
    intro r hr1 hr2
    have hmm := minChunkSize_lt_max
    have hsm : (k + 1) * MaxChunkSize = k * MaxChunkSize + MaxChunkSize :=
      Nat.succ_mul k MaxChunkSize
    have hlen : (List.replicate ((k + 1) * MaxChunkSize + r) (255:Nat)).length =
        (k + 1) * MaxChunkSize + r := by simp
    have hne : List.replicate ((k + 1) * MaxChunkSize + r) (255:Nat) ≠ [] := by
      intro hc
      have := congrArg List.length hc
      simp at this
      omega
    rw [chunkBoundaries_cons H sha _ hne]
    have hcl : chunkLen (List.replicate ((k + 1) * MaxChunkSize + r) (255:Nat)) =
        MaxChunkSize := by
      apply chunkLen_of_odd_big
      · rw [hlen]
        omega
      · intro j _ hj2
        rw [getD_replicate _ _ _ (by omega)]
    rw [hcl, List.drop_replicate]
    have hsub : (k + 1) * MaxChunkSize + r - MaxChunkSize =
        k * MaxChunkSize + r := by omega
    rw [hsub, ih r hr1 hr2]
    rw [List.range_succ_eq_map]
    simp only [List.map_cons, List.map_append, List.map_map, List.map_nil,
      List.cons_append, List.nil_append]
    refine List.cons_eq_cons.mpr ⟨by omega, ?_⟩
    refine congrArg₂ (· ++ ·) ?_ ?_
    · apply List.map_congr_left
      intro x _
      simp only [Function.comp_apply, Nat.succ_eq_add_one]
      ring
    · refine congrArg (fun t => [t]) ?_
      omega

theorem maxChunkSize_pos : 0 < MaxChunkSize := by decide

theorem drop_cons_of_pos (a : Nat) (l : List Nat) (n : Nat) (h : 0 < n) :
    (a :: l).drop n = l.drop (n - 1) := by
  obtain ⟨m, rfl⟩ : ∃ m, n = m + 1 := ⟨n - 1, by omega⟩
  simp [List.drop_succ_cons]

/-- Boundaries of the all-`0xFF` stream of length `3·MAX + 2`. -/
theorem chunkBoundaries_ff_base (H : Type) (sha : List Nat → H) :
    chunkBoundaries H sha (List.replicate (3 * MaxChunkSize + 2) 255) =
      [MaxChunkSize, 2 * MaxChunkSize, 3 * MaxChunkSize, 3 * MaxChunkSize + 2] := by
  have h2 : (2:Nat) < MinChunkSize := by decide
  rw [chunkBoundaries_replicate_ff H sha 3 2 (by omega) h2]
  simp only [List.range_succ, List.range_zero, List.map_append, List.map_cons,
    List.map_nil, List.nil_append, List.cons_append, List.append_assoc,
    List.cons.injEq, and_true]
  ring_nf

/-- Boundaries of the same stream with one byte prepended: every cut moves
by one content position. -/
theorem chunkBoundaries_ff_prepended (H : Type) (sha : List Nat → H) :
    chunkBoundaries H sha (0 :: List.replicate (3 * MaxChunkSize + 2) 255) =
      [MaxChunkSize, 2 * MaxChunkSize, 3 * MaxChunkSize, 3 * MaxChunkSize + 3] := by
  have hMp := maxChunkSize_pos
  have hmp := minChunkSize_pos
  have hmm := minChunkSize_lt_max
  have h3 : (3:Nat) < MinChunkSize := by decide
  set S := (0 :: List.replicate (3 * MaxChunkSize + 2) 255 : List Nat) with hSdef
  have hne : S ≠ [] := by simp [hSdef]
  have hlen : S.length = 3 * MaxChunkSize + 3 := by
    rw [hSdef, List.length_cons, List.length_replicate]
  have hcl : chunkLen S = MaxChunkSize := by
    apply chunkLen_of_odd_big
    · omega
    · intro j hj1 hj2
      obtain ⟨j', rfl⟩ : ∃ j', j = j' + 1 := ⟨j - 1, by omega⟩
      rw [hSdef]
      rw [List.getD_cons_succ]
      rw [getD_replicate _ _ _ (by omega)]
  rw [chunkBoundaries_cons H sha S hne, hcl]
  have hdrop : S.drop MaxChunkSize = List.replicate (2 * MaxChunkSize + 3) 255 := by
    rw [hSdef, drop_cons_of_pos _ _ _ hMp, List.drop_replicate]
    congr 1
  rw [hdrop, chunkBoundaries_replicate_ff H sha 2 3 (by omega) h3]
  simp only [List.range_succ, List.range_zero, List.map_append, List.map_cons,
    List.map_nil, List.nil_append, List.cons_append, List.append_assoc,
    List.cons.injEq, and_true]
  ring_nf
  simp

/-- The chunking of an all-`0xFF` stream of length `MAX + 1`: one maximal
chunk followed by a single leftover byte. -/
theorem chunkFile_ff_two_chunks (H : Type) (sha : List Nat → H) :
    ChunkFile H sha (List.replicate (MaxChunkSize + 1) 255) =
      [Chunk.mk (List.replicate MaxChunkSize 255)
          (sha (List.replicate MaxChunkSize 255)) MaxChunkSize 0,
        Chunk.mk [255] (sha [255]) 1 MaxChunkSize] := by
  have hMp := maxChunkSize_pos
  have hmp := minChunkSize_pos
  have hmm := minChunkSize_lt_max
  set S := (List.replicate (MaxChunkSize + 1) 255 : List Nat) with hSdef
  have hlen : S.length = MaxChunkSize + 1 := by
    rw [hSdef, List.length_replicate]
  have hne : S ≠ [] := by
    intro hc
    have := congrArg List.length hc
    rw [hlen] at this
    simp at this
  have hcl : chunkLen S = MaxChunkSize := by
    apply chunkLen_of_odd_big
    · omega
    · intro j _ hj2
      rw [hSdef, getD_replicate _ _ _ (by omega)]
  have htake : S.take MaxChunkSize = List.replicate MaxChunkSize 255 := by
    rw [hSdef, List.take_replicate]
    congr 1
  have hdrop : S.drop MaxChunkSize = [255] := by
    rw [hSdef, List.drop_replicate]
    have : MaxChunkSize + 1 - MaxChunkSize = 1 := by omega
    rw [this, List.replicate_one]
  unfold ChunkFile
  rw [hlen, chunkFileGo_cons H sha MaxChunkSize 0 S hne, hcl, htake, hdrop]
  have hone : ([255] : List Nat) ≠ [] := by simp
  have h1m : ([255] : List Nat).length < MinChunkSize := by decide
  have hcl1 : chunkLen [255] = 1 := by
    rw [chunkLen_of_small _ (by decide) h1m]
    decide
  rw [chunkFileGo_fuel_irrel H sha MaxChunkSize 1 (0 + MaxChunkSize) [255]
    (by simp only [List.length_cons, List.length_nil]; omega) (by decide)]
  rw [show (1:Nat) = 0 + 1 from rfl, chunkFileGo_cons H sha 0 (0 + MaxChunkSize)
    [255] hone, hcl1]
  simp [ChunkFileGo]

end Chunking

namespace Crypto

/-- Sealing then opening with the same key and nonce recovers the plaintext,
given the AEAD round-trip property of Go's GCM implementation. -/
theorem decryptChunk_encryptChunk
    (gcmSeal : List Nat → List Nat → List Nat → List Nat)
    (gcmOpen : List Nat → List Nat → List Nat → Option (List Nat))
    (k : EncryptionKey) (nonce data : List Nat)
    (hk : aesKeySizeOk k.key = true) (hn : nonce.length = NonceSize)
    (haead : gcmOpen k.key nonce (gcmSeal k.key nonce data) = some data) :
    EncryptChunk gcmSeal nonce data k = .ok (nonce ++ gcmSeal k.key nonce data) ∧
      DecryptChunk gcmOpen (nonce ++ gcmSeal k.key nonce data) k = .ok data := by
  constructor
  · simp [EncryptChunk, hk]
  · unfold DecryptChunk
    simp only [hk, if_true]
    have hlen : ¬ (nonce ++ gcmSeal k.key nonce data).length < NonceSize := by
      simp only [List.length_append]
      omega
    simp only [if_neg hlen]
    rw [← hn, List.take_left, List.drop_left, haead]

/-- Any ciphertext shorter than the nonce size makes `DecryptChunk` return
an error; with a valid AES key length, that error is the length guard. -/
theorem decryptChunk_short
    (gcmOpen : List Nat → List Nat → List Nat → Option (List Nat))
    (k : EncryptionKey) (c : List Nat) (hc : c.length < NonceSize) :
    (∃ e, DecryptChunk gcmOpen c k = .error e) ∧
      (aesKeySizeOk k.key = true →
        DecryptChunk gcmOpen c k = .error "ciphertext too short") := by
  constructor
  · unfold DecryptChunk
    by_cases hk : aesKeySizeOk k.key
    · simp only [hk, if_true, if_pos hc]
      exact ⟨"ciphertext too short", rfl⟩
    · simp only [hk, Bool.false_eq_true, if_false]
      exact ⟨"crypto/aes: invalid key size", rfl⟩
  · intro hk
    unfold DecryptChunk
    simp only [hk, if_true, if_pos hc]

end Crypto

namespace Dedup

theorem alookup_cons {H β : Type} [DecidableEq H] (k : H) (v : β)
    (l : List (H × β)) (j : H) :
    alookup ((k, v) :: l) j = if k = j then some v else alookup l j := rfl

/-- Updating an existing key changes exactly that key's (first) binding. -/
theorem alookup_aupdate {H β : Type} [DecidableEq H] :
    ∀ (l : List (H × β)) (k : H) (v : β) (j : H),
      (alookup l k).isSome →
      alookup (aupdate l k v) j = if k = j then some v else alookup l j := by
  intro l
  induction l with
  | nil => intro k v j h; simp [alookup] at h
  | cons p rest ih =>
    intro k v j h
    obtain ⟨pk, pv⟩ := p
    by_cases hpk : pk = k
    · subst hpk
      simp only [aupdate, if_pos rfl]
      by_cases hj : pk = j
      · subst hj
        simp [alookup]
      · simp [alookup, hj]
    · simp only [aupdate, if_neg hpk]
      rw [alookup_cons] at h
      simp only [if_neg hpk] at h
      by_cases hpj : pk = j
      · subst hpj
        simp only [alookup_cons, if_pos rfl]
        have : ¬ k = pk := fun hh => hpk hh.symm
        simp [if_neg this]
      · simp only [alookup_cons, if_neg hpj]
        exact ih k v j h

/-- Updating an absent key is a no-op. -/
theorem aupdate_absent {H β : Type} [DecidableEq H] :
    ∀ (l : List (H × β)) (k : H) (v : β),
      alookup l k = none → aupdate l k v = l := by
  intro l
  induction l with
  | nil => intro k v _; rfl
  | cons p rest ih =>
    intro k v h
    obtain ⟨pk, pv⟩ := p
    rw [alookup_cons] at h
    by_cases hpk : pk = k
    · simp [if_pos hpk] at h
    · simp only [if_neg hpk] at h
      simp only [aupdate, if_neg hpk]
      rw [ih k v h]

/-- Branch equation: storing an absent hash writes the bytes and creates a
refcount-1 entry. -/
theorem storeChunk_absent {H : Type} [DecidableEq H] (cs : ChunkStore H)
    (h : H) (d : List Nat) (hl : alookup cs.index h = none) :
    StoreChunk false cs h d = (.ok (h, true),
      ⟨(h, ⟨h, d.length, 1, h⟩) :: cs.index, (h, d) :: cs.disk⟩) := by
  unfold StoreChunk
  rw [hl]
  rfl

/-- Branch equation: storing a present hash only increments its refcount. -/
theorem storeChunk_present {H : Type} [DecidableEq H] (cs : ChunkStore H)
    (h : H) (d : List Nat) (md : ChunkMetadata H)
    (hl : alookup cs.index h = some md) :
    StoreChunk false cs h d = (.ok (md.storePath, false),
      ⟨aupdate cs.index h ({ md with refCount := md.refCount + 1 }),
        cs.disk⟩) := by
  unfold StoreChunk
  rw [hl]

/-- Branch equation: releasing an absent hash errors and changes nothing. -/
theorem releaseChunk_absent {H : Type} [DecidableEq H] (cs : ChunkStore H)
    (h : H) (hl : alookup cs.index h = none) :
    ReleaseChunk false cs h = (.error "chunk not found", cs) := by
  unfold ReleaseChunk
  rw [hl]

/-- Branch equation: a release that leaves the refcount positive updates the
entry in place. -/
theorem releaseChunk_pos {H : Type} [DecidableEq H] (cs : ChunkStore H)
    (h : H) (md : ChunkMetadata H) (hl : alookup cs.index h = some md)
    (hrc : ¬ md.refCount - 1 ≤ 0) :
    ReleaseChunk false cs h = (.ok (),
      ⟨aupdate cs.index h ({ md with refCount := md.refCount - 1 }),
        cs.disk⟩) := by
  unfold ReleaseChunk
  rw [hl]
  dsimp only
  rw [if_neg hrc]

/-- Branch equation: a release that drops the refcount to (or below) zero
removes the bytes and the metadata. -/
theorem releaseChunk_zero {H : Type} [DecidableEq H] (cs : ChunkStore H)
    (h : H) (md : ChunkMetadata H) (hl : alookup cs.index h = some md)
    (hrc : md.refCount - 1 ≤ 0) :
    ReleaseChunk false cs h = (.ok (),
      ⟨aerase cs.index h, aerase cs.disk md.storePath⟩) := by
  unfold ReleaseChunk
  rw [hl]
  dsimp only
  rw [if_pos hrc]
  rfl

/-- The empty store is consistent. -/
theorem storeConsistent_empty {H : Type} [DecidableEq H]
    (sha : List Nat → H) : storeConsistent sha (emptyStore H) := by
  intro h md hmd
  simp [emptyStore, alookup] at hmd

/-- Storing bytes under their own hash succeeds, preserves consistency,
makes those bytes readable, and preserves every previously readable chunk. -/
theorem storeChunk_spec {H : Type} [DecidableEq H] (sha : List Nat → H)
    (hinj : Function.Injective sha) (cs : ChunkStore H)
    (hcons : storeConsistent sha cs) (d : List Nat) :
    storeConsistent sha (StoreChunk false cs (sha d) d).2 ∧
      GetChunk (StoreChunk false cs (sha d) d).2 (sha d) = .ok d ∧
      (∀ h' d', GetChunk cs h' = .ok d' →
        GetChunk (StoreChunk false cs (sha d) d).2 h' = .ok d') := by
  cases hl : alookup cs.index (sha d) with
  | some md =>
    have h2 : (StoreChunk false cs (sha d) d).2 =
        ⟨aupdate cs.index (sha d) ({ md with refCount := md.refCount + 1 }),
          cs.disk⟩ := by
      rw [storeChunk_present cs (sha d) d md hl]
    obtain ⟨hpath, d0, hd0, hsha0⟩ := hcons (sha d) md hl
    have hd0d : d0 = d := hinj hsha0
    rw [hd0d] at hd0
    have hsome : (alookup cs.index (sha d)).isSome := by rw [hl]; rfl
    rw [h2]
    refine ⟨?_, ?_, ?_⟩
    · intro h' md' hmd'
      dsimp only at hmd'
      rw [alookup_aupdate cs.index (sha d) _ h' hsome] at hmd'
      dsimp only
      by_cases hh : sha d = h'
      · rw [if_pos hh] at hmd'
        injection hmd' with he
        subst he
        subst hh
        exact ⟨hpath, d, hd0, rfl⟩
      · rw [if_neg hh] at hmd'
        exact hcons h' md' hmd'
    · unfold GetChunk
      dsimp only
      rw [alookup_aupdate cs.index (sha d) _ (sha d) hsome, if_pos rfl]
      dsimp only
      rw [hpath, hd0]
    · intro h' d' hget
      unfold GetChunk at hget ⊢
      dsimp only
      cases hl' : alookup cs.index h' with
      | none =>
        rw [hl'] at hget
        exact absurd hget (by simp)
      | some md' =>
        rw [hl'] at hget
        dsimp only at hget
        rw [alookup_aupdate cs.index (sha d) _ h' hsome]
        by_cases hh : sha d = h'
        · rw [if_pos hh]
          subst hh
          rw [hl] at hl'
          injection hl' with he
          subst he
          dsimp only
          exact hget
        · rw [if_neg hh, hl']
          dsimp only
          exact hget
  | none =>
    have h2 : (StoreChunk false cs (sha d) d).2 =
        ⟨(sha d, ⟨sha d, d.length, 1, sha d⟩) :: cs.index,
          (sha d, d) :: cs.disk⟩ := by
      rw [storeChunk_absent cs (sha d) d hl]
    rw [h2]
    refine ⟨?_, ?_, ?_⟩
    · intro h' md' hmd'
      dsimp only at hmd'
      rw [alookup_cons] at hmd'
      dsimp only
      by_cases hh : sha d = h'
      · rw [if_pos hh] at hmd'
        injection hmd' with he
        subst he
        subst hh
        refine ⟨rfl, d, ?_, rfl⟩
        rw [alookup_cons, if_pos rfl]
      · rw [if_neg hh] at hmd'
        obtain ⟨hpath, d0, hd0, hsha0⟩ := hcons h' md' hmd'
        refine ⟨hpath, d0, ?_, hsha0⟩
        rw [alookup_cons, if_neg hh]
        exact hd0
    · unfold GetChunk
      dsimp only
      rw [alookup_cons, if_pos rfl]
      dsimp only
      rw [alookup_cons, if_pos rfl]
    · intro h' d' hget
      unfold GetChunk at hget ⊢
      dsimp only
      cases hl' : alookup cs.index h' with
      | none =>
        rw [hl'] at hget
        exact absurd hget (by simp)
      | some md' =>
        rw [hl'] at hget
        dsimp only at hget
        have hh : ¬ sha d = h' := by
          intro hc
          rw [hc] at hl
          rw [hl] at hl'
          exact Option.noConfusion hl'
        rw [alookup_cons, if_neg hh, hl']
        dsimp only
        obtain ⟨hpath, d0, hd0, hsha0⟩ := hcons h' md' hl'
        rw [hpath, alookup_cons, if_neg hh, ← hpath]
        cases hld : alookup cs.disk md'.storePath with
        | none =>
          rw [hld] at hget
          exact absurd hget (by simp)
        | some dd =>
          rw [hld] at hget
          exact hget

end Dedup

namespace Node

/-- `sort.Search` never returns an index beyond the list length. -/
theorem searchGE_le (l : List Nat) (p : Nat) : searchGE l p ≤ l.length :=
  (List.takeWhile_sublist _).length_le

theorem getNodesLoop_zero (visit : List String) (count idx : Nat)
    (result : List String) :
    getNodesLoop visit count 0 idx result =
      if count ≤ result.length then some result else none := rfl

theorem getNodesLoop_succ (visit : List String) (count fuel idx : Nat)
    (result : List String) :
    getNodesLoop visit count (fuel + 1) idx result =
      if count ≤ result.length then some result
      else if visit.length = 0 then none
      else
        getNodesLoop visit count fuel
          ((if visit.length ≤ idx then 0 else idx) + 1)
          (if visit.getD (if visit.length ≤ idx then 0 else idx) "" ∈ result
            then result
            else result ++
              [visit.getD (if visit.length ≤ idx then 0 else idx) ""]) := rfl

theorem visitSeq_succ (len idx fuel : Nat) :
    visitSeq len idx (fuel + 1) =
      (if len ≤ idx then 0 else idx) ::
        visitSeq len ((if len ≤ idx then 0 else idx) + 1) fuel := rfl

theorem visitSeq_wrap (len : Nat) (hpos : 0 < len) :
    ∀ fuel, visitSeq len len fuel = visitSeq len 0 fuel := by
  intro fuel
  cases fuel with
  | zero => rfl
  | succ fuel =>
    rw [visitSeq_succ, visitSeq_succ]
    rw [if_pos le_rfl, if_neg (by omega)]

/-- Splitting a visit sequence at an iteration count. -/
theorem visitSeq_split (len : Nat) (hpos : 0 < len) :
    ∀ a idx b, idx ≤ len → ∃ e, e ≤ len ∧
      visitSeq len idx (a + b) = visitSeq len idx a ++ visitSeq len e b := by
  intro a
  induction a with
  | zero =>
    intro idx b hidx
    exact ⟨idx, hidx, by simp [visitSeq]⟩
  | succ a ih =>
    intro idx b hidx
    have harith : a + 1 + b = (a + b) + 1 := by omega
    rw [harith, visitSeq_succ, visitSeq_succ]
    have hwrap : (if len ≤ idx then 0 else idx) + 1 ≤ len := by
      by_cases hl : len ≤ idx
      · rw [if_pos hl]; omega
      · rw [if_neg hl]; omega
    obtain ⟨e, he, heq⟩ := ih ((if len ≤ idx then 0 else idx) + 1) b hwrap
    exact ⟨e, he, by rw [heq]; rfl⟩

/-- Reachability in the visit sequence, measured by cyclic distance from a
normalized start index. -/
theorem visitSeq_mem_of_dist (len : Nat) (hpos : 0 < len) (j : Nat)
    (hj : j < len) :
    ∀ fuel idx, idx < len →
      (if idx ≤ j then j - idx else len - idx + j) < fuel →
      j ∈ visitSeq len idx fuel := by
  intro fuel
  induction fuel with
  | zero => intro idx _ hd; omega
  | succ fuel ih =>
    intro idx hidx hd
    have hnw : ¬ len ≤ idx := by omega
    rw [visitSeq_succ, if_neg hnw]
    by_cases hje : j = idx
    · subst hje
      exact List.mem_cons_self _ _
    · apply List.mem_cons_of_mem
      by_cases hlast : idx + 1 < len
      · apply ih (idx + 1) hlast
        by_cases hle : idx + 1 ≤ j
        · rw [if_pos hle]
          split at hd <;> omega
        · rw [if_neg hle]
          split at hd <;> omega
      · have hidx1 : idx + 1 = len := by omega
        rw [hidx1, visitSeq_wrap len hpos fuel]
        apply ih 0 hpos
        rw [if_pos (Nat.zero_le j)]
        split at hd <;> omega

/-- Within `2·len` iterations from any admissible start, every ring index is
visited. -/
theorem visitSeq_cover (len : Nat) (hpos : 0 < len) (idx j : Nat)
    (hidx : idx ≤ len) (hj : j < len) : j ∈ visitSeq len idx (2 * len) := by
  by_cases hil : idx < len
  · apply visitSeq_mem_of_dist len hpos j hj (2 * len) idx hil
    split <;> omega
  · have hie : idx = len := by omega
    rw [hie, visitSeq_wrap len hpos]
    apply visitSeq_mem_of_dist len hpos j hj (2 * len) 0 hpos
    rw [if_pos (Nat.zero_le j)]
    omega

/-- The collection loop terminates with exactly `count` pairwise-distinct
node IDs drawn from the ring, provided every still-missing node is scheduled
to be visited within the remaining fuel. -/
theorem getNodesLoop_spec (visit nodes : List String) (count : Nat)
    (hnd : nodes.Nodup)
    (hcnt : count ≤ nodes.length) (hvpos : 0 < visit.length) :
    ∀ fuel idx result,
      result.Nodup → (∀ x ∈ result, x ∈ visit) → result.length ≤ count →
      (∀ m, m ∈ nodes → m ∉ result →
        m ∈ (visitSeq visit.length idx fuel).map (fun i => visit.getD i "")) →
      ∃ l, getNodesLoop visit count fuel idx result = some l ∧
        l.Nodup ∧ l.length = count ∧ (∀ x ∈ l, x ∈ visit) := by
  intro fuel
  induction fuel with
  | zero =>
    intro idx result hrnd hrsub hrlen hsched
    by_cases hfull : count ≤ result.length
    · exact ⟨result, by rw [getNodesLoop_zero, if_pos hfull], hrnd, by omega, hrsub⟩
    · exfalso
      have hmiss : ∃ m, m ∈ nodes ∧ m ∉ result := by
        by_contra hall
        push_neg at hall
        have : nodes.length ≤ result.length :=
          (List.subperm_of_subset hnd hall).length_le
        omega
      obtain ⟨m, hm, hmr⟩ := hmiss
      have := hsched m hm hmr
      simp [visitSeq] at this
  | succ fuel ih =>
    intro idx result hrnd hrsub hrlen hsched
    by_cases hfull : count ≤ result.length
    · exact ⟨result, by rw [getNodesLoop_succ, if_pos hfull], hrnd, by omega, hrsub⟩
    · have hv0 : ¬ visit.length = 0 := by omega
      rw [getNodesLoop_succ, if_neg hfull, if_neg hv0]
      have hidx2lt : (if visit.length ≤ idx then 0 else idx) < visit.length := by
        by_cases hl : visit.length ≤ idx
        · rw [if_pos hl]; omega
        · rw [if_neg hl]; omega
      have hndmem : visit.getD (if visit.length ≤ idx then 0 else idx) "" ∈ visit := by
        rw [List.getD_eq_getElem visit "" hidx2lt]
        exact List.getElem_mem hidx2lt
      by_cases hmem :
          visit.getD (if visit.length ≤ idx then 0 else idx) "" ∈ result
      · rw [if_pos hmem]
        apply ih _ result hrnd hrsub (by omega)
        intro m hm hmr
        have := hsched m hm hmr
        rw [visitSeq_succ, List.map_cons] at this
        rcases List.mem_cons.mp this with heq | htail
        · exact absurd (heq ▸ hmem) hmr
        · exact htail
      · rw [if_neg hmem]
        have hrnd' : (result ++
            [visit.getD (if visit.length ≤ idx then 0 else idx) ""]).Nodup := by
          rw [List.nodup_append]
          refine ⟨hrnd, List.nodup_singleton _, ?_⟩
          intro a ha hb
          rw [List.mem_singleton] at hb
          subst hb
          exact hmem ha
        have hrsub' : ∀ x ∈ result ++
            [visit.getD (if visit.length ≤ idx then 0 else idx) ""],
            x ∈ visit := by
          intro x hx
          rcases List.mem_append.mp hx with hx | hx
          · exact hrsub x hx
          · rw [List.mem_singleton] at hx
            subst hx
            exact hndmem
        apply ih _ _ hrnd' hrsub'
          (by rw [List.length_append, List.length_cons, List.length_nil]; omega)
        intro m hm hmr
        have hmr0 : m ∉ result := fun hc => hmr (List.mem_append_left _ hc)
        have hmnd : m ≠ visit.getD (if visit.length ≤ idx then 0 else idx) "" := by
          intro hc
          apply hmr
          rw [hc]
          exact List.mem_append_right _ (List.mem_singleton_self _)
        have := hsched m hm hmr0
        rw [visitSeq_succ, List.map_cons] at this
        rcases List.mem_cons.mp this with heq | htail
        · exact absurd heq hmnd
        · exact htail

end Node

namespace Node

/-- `GetNodes` on a populated registry reduces to the collection loop. -/
theorem getNodes_eq (ch : ConsistentHash) (p count0 : Nat)
    (hne : ¬ ch.nodes.length = 0) :
    GetNodes ch p count0 = .ok (getNodesLoop (ringVisit ch)
      (if ch.nodes.length < count0 then ch.nodes.length else count0)
      (2 * ch.sortedHashes.length +
        (if ch.nodes.length < count0 then ch.nodes.length else count0) + 1)
      (searchGE ch.sortedHashes p) []) := by
  unfold GetNodes
  rw [if_neg hne]

/-- The replica walk on a well-formed, nonempty ring: the Go loop terminates
and returns `min R |nodes|` pairwise-distinct physical node IDs; when
`|nodes| ≤ R` every physical node is returned. -/
theorem getNodes_spec (ch : ConsistentHash) (p R : Nat)
    (hne : ch.nodes ≠ []) (hnd : ch.nodes.Nodup)
    (h1 : ∀ nd ∈ ch.nodes, nd ∈ ringVisit ch)
    (h2 : ∀ x ∈ ringVisit ch, x ∈ ch.nodes) :
    ∃ l, GetNodes ch p R = .ok (some l) ∧ l.Nodup ∧
      l.length = min R ch.nodes.length ∧ (∀ x ∈ l, x ∈ ch.nodes) ∧
      (ch.nodes.length ≤ R → ∀ nd ∈ ch.nodes, nd ∈ l) := by
  have hn0 : ¬ ch.nodes.length = 0 := by
    intro hc
    exact hne (List.length_eq_zero.mp hc)
  have hvpos : 0 < (ringVisit ch).length := by
    obtain ⟨nd, hndm⟩ := List.exists_mem_of_ne_nil ch.nodes hne
    have := h1 nd hndm
    exact List.length_pos.mpr (List.ne_nil_of_mem this)
  have hlen : (ringVisit ch).length = ch.sortedHashes.length := by
    unfold ringVisit
    exact List.length_map _ _
  have hcnt : (if ch.nodes.length < R then ch.nodes.length else R) ≤
      ch.nodes.length := by
    split <;> omega
  obtain ⟨l, hloop, hlnd, hllen, hlsub⟩ :=
    getNodesLoop_spec (ringVisit ch) ch.nodes
      (if ch.nodes.length < R then ch.nodes.length else R) hnd hcnt hvpos
      (2 * ch.sortedHashes.length +
        (if ch.nodes.length < R then ch.nodes.length else R) + 1)
      (searchGE ch.sortedHashes p) [] (List.nodup_nil) (by intro x hx; simp at hx)
      (by simp)
      (by
        intro m hm _
        have hmv : m ∈ ringVisit ch := h1 m hm
        obtain ⟨j, hj, hje⟩ := List.mem_iff_getElem.mp hmv
        have hcov : j ∈ visitSeq (ringVisit ch).length
            (searchGE ch.sortedHashes p) (2 * (ringVisit ch).length) := by
          apply visitSeq_cover _ hvpos
          · rw [hlen]
            exact searchGE_le _ _
          · exact hj
        have hfuel : 2 * ch.sortedHashes.length +
            (if ch.nodes.length < R then ch.nodes.length else R) + 1 =
            2 * (ringVisit ch).length +
            ((if ch.nodes.length < R then ch.nodes.length else R) + 1) := by
          rw [hlen]
          omega
        rw [hfuel]
        obtain ⟨e, _, hsplit⟩ := visitSeq_split (ringVisit ch).length hvpos
          (2 * (ringVisit ch).length) (searchGE ch.sortedHashes p)
          ((if ch.nodes.length < R then ch.nodes.length else R) + 1)
          (by rw [hlen]; exact searchGE_le _ _)
        rw [hsplit, List.map_append]
        apply List.mem_append_left
        have : (ringVisit ch).getD j "" = m := by
          rw [List.getD_eq_getElem _ "" hj]
          exact hje
        rw [← this]
        exact List.mem_map_of_mem _ hcov)
  refine ⟨l, ?_, hlnd, ?_, ?_, ?_⟩
  · rw [getNodes_eq ch p R hn0, hloop]
  · rw [hllen, Nat.min_def]
    split_ifs <;> omega
  · intro x hx
    exact h2 x (hlsub x hx)
  · intro hnr nd hndm
    have hleq : ch.nodes.length ≤ l.length := by
      rw [hllen]
      split <;> omega
    have hsubl : l ⊆ ch.nodes := fun x hx => h2 x (hlsub x hx)
    have hperm := (List.subperm_of_subset hlnd hsubl).perm_of_length_le hleq
    exact hperm.symm.subset hndm

/-- `GetHealthyNodes` in closed form: every entry's status is rewritten from
its `LastSeen` age, nothing else changes, and the returned slice is exactly
the healthy sublist. -/
theorem getHealthyNodes_eq (now timeout : Int) :
    ∀ reg : List (String × NodeInfo),
      (GetHealthyNodes now timeout reg).1 = reg.map (fun q => (q.1,
          setStatus (if now - q.2.lastSeen < timeout then "healthy"
            else "offline") q.2)) ∧
      (GetHealthyNodes now timeout reg).2 =
        ((GetHealthyNodes now timeout reg).1.map Prod.snd).filter
          (fun n => n.status == "healthy") := by
  intro reg
  induction reg with
  | nil => exact ⟨rfl, rfl⟩
  | cons q rest ih =>
    obtain ⟨k, node⟩ := q
    obtain ⟨ih1, ih2⟩ := ih
    unfold GetHealthyNodes
    dsimp only
    by_cases hh : now - node.lastSeen < timeout
    · rw [if_pos hh]
      dsimp only
      constructor
      · simp only [List.map_cons, if_pos hh]
        rw [← ih1]
      · have hst : ((setStatus "healthy" node).status == "healthy") = true := rfl
        simp only [List.map_cons, List.filter_cons, hst, if_true]
        rw [ih2]
    · rw [if_neg hh]
      dsimp only
      constructor
      · simp only [List.map_cons, if_neg hh]
        rw [← ih1]
      · have hst : ((setStatus "offline" node).status == "healthy") = false := rfl
        simp only [List.map_cons, List.filter_cons, hst, Bool.false_eq_true,
          if_false]
        rw [ih2]

/-- Membership in the recovered-chunk set of `loadExistingChunks`. -/
theorem loadExistingChunks_mem (entries : List WalkEntry) (s : String) :
    s ∈ loadExistingChunks entries ↔
      ∃ e ∈ entries, e.isDir = false ∧ e.name.length = 64 ∧ e.name = s := by
  unfold loadExistingChunks
  rw [List.mem_map]
  constructor
  · rintro ⟨e, he, rfl⟩
    rw [List.mem_filter] at he
    obtain ⟨hee, hcond⟩ := he
    simp only [Bool.and_eq_true, Bool.not_eq_true', beq_iff_eq] at hcond
    exact ⟨e, hee, hcond.1, hcond.2, rfl⟩
  · rintro ⟨e, he, hdir, hlen, rfl⟩
    refine ⟨e, ?_, rfl⟩
    rw [List.mem_filter]
    refine ⟨he, ?_⟩
    simp only [Bool.and_eq_true, Bool.not_eq_true', beq_iff_eq]
    exact ⟨hdir, hlen⟩

end Node

namespace Dedup

/-- `StoreChunk` with a fault-free backing store never errors. -/
theorem storeChunk_ok {H : Type} [DecidableEq H] (cs : ChunkStore H) (h : H)
    (d : List Nat) :
    ∃ path isNew cs', StoreChunk false cs h d = (.ok (path, isNew), cs') := by
  cases hl : alookup cs.index h with
  | some md =>
    exact ⟨md.storePath, false, _, storeChunk_present cs h d md hl⟩
  | none =>
    exact ⟨h, true, _, storeChunk_absent cs h d hl⟩

end Dedup

namespace Pipeline

/-- The store/fetch loops of the upload and download pipelines are inverse:
uploading a chunk list (sealing each chunk when a key is present) yields a
store and a hash list from which the download loop reassembles exactly the
concatenated chunk data. -/
theorem uploadChunks_spec {H : Type} [DecidableEq H] (sha : List Nat → H)
    (hinj : Function.Injective sha)
    (gcmSeal : List Nat → List Nat → List Nat → List Nat)
    (gcmOpen : List Nat → List Nat → List Nat → Option (List Nat))
    (key? : Option Crypto.EncryptionKey) (nonces : Nat → List Nat)
    (hkey : ∀ k, key? = some k → Crypto.aesKeySizeOk k.key = true)
    (hn : ∀ i, (nonces i).length = Crypto.NonceSize)
    (haead : ∀ k n d, gcmOpen k n (gcmSeal k n d) = some d) :
    ∀ (chunks : List (Chunking.Chunk H)) (i : Nat) (cs : Dedup.ChunkStore H),
      Dedup.storeConsistent sha cs →
      (∀ c ∈ chunks, c.hash = sha c.data) →
      ∃ hs stored cs',
        uploadChunks sha gcmSeal key? nonces chunks i cs = .ok (hs, stored, cs') ∧
        Dedup.storeConsistent sha cs' ∧
        (∀ h' d', Dedup.GetChunk cs h' = .ok d' →
          Dedup.GetChunk cs' h' = .ok d') ∧
        downloadChunks gcmOpen key? cs' hs =
          .ok (chunks.map Chunking.Chunk.data).flatten := by
  intro chunks
  induction chunks with
  | nil =>
    intro i cs hcons _
    exact ⟨[], 0, cs, rfl, hcons, fun h' d' hx => hx, rfl⟩
  | cons c rest ih =>
    intro i cs hcons hshape
    have hch : c.hash = sha c.data := hshape c (List.mem_cons_self c rest)
    have hshape' : ∀ c' ∈ rest, c'.hash = sha c'.data :=
      fun c' hc' => hshape c' (List.mem_cons_of_mem c hc')
    cases hkc : key? with
    | none =>
      subst hkc
      obtain ⟨spec1, spec2, spec3⟩ :=
        Dedup.storeChunk_spec sha hinj cs hcons c.data
      obtain ⟨path, isNew, cs1, hsc⟩ := Dedup.storeChunk_ok cs (sha c.data) c.data
      have hcs1 : (Dedup.StoreChunk false cs (sha c.data) c.data).2 = cs1 := by
        rw [hsc]
      rw [hcs1] at spec1 spec2 spec3
      obtain ⟨hs, stored, cs', hrec, hcons', hmono, hdl⟩ :=
        ih (i + 1) cs1 spec1 hshape'
      refine ⟨c.hash :: hs, (if isNew then 1 else 0) + stored, cs', ?_, hcons',
        ?_, ?_⟩
      · unfold uploadChunks
        dsimp only
        rw [hch, hsc]
        dsimp only
        rw [hrec]
      · intro h' d' hx
        exact hmono h' d' (spec3 h' d' hx)
      · unfold downloadChunks
        rw [hch, hmono (sha c.data) c.data spec2]
        dsimp only
        rw [hdl]
        dsimp only
        simp only [List.map_cons, List.flatten_cons]
    | some k =>
      have hk : Crypto.aesKeySizeOk k.key = true := hkey k hkc
      subst hkc
      obtain ⟨henc, hdec⟩ := Crypto.decryptChunk_encryptChunk gcmSeal gcmOpen k
        (nonces i) c.data hk (hn i) (haead k.key (nonces i) c.data)
      obtain ⟨spec1, spec2, spec3⟩ := Dedup.storeChunk_spec sha hinj cs hcons
        (nonces i ++ gcmSeal k.key (nonces i) c.data)
      obtain ⟨path, isNew, cs1, hsc⟩ := Dedup.storeChunk_ok cs
        (sha (nonces i ++ gcmSeal k.key (nonces i) c.data))
        (nonces i ++ gcmSeal k.key (nonces i) c.data)
      have hcs1 : (Dedup.StoreChunk false cs
          (sha (nonces i ++ gcmSeal k.key (nonces i) c.data))
          (nonces i ++ gcmSeal k.key (nonces i) c.data)).2 = cs1 := by
        rw [hsc]
      rw [hcs1] at spec1 spec2 spec3
      obtain ⟨hs, stored, cs', hrec, hcons', hmono, hdl⟩ :=
        ih (i + 1) cs1 spec1 hshape'
      refine ⟨sha (nonces i ++ gcmSeal k.key (nonces i) c.data) :: hs,
        (if isNew then 1 else 0) + stored, cs', ?_, hcons', ?_, ?_⟩
      · unfold uploadChunks
        dsimp only
        rw [henc]
        dsimp only
        rw [hsc]
        dsimp only
        rw [hrec]
      · intro h' d' hx
        exact hmono h' d' (spec3 h' d' hx)
      · unfold downloadChunks
        rw [hmono _ _ spec2]
        dsimp only
        rw [hdec]
        dsimp only
        rw [hdl]
        dsimp only
        simp only [List.map_cons, List.flatten_cons]

end Pipeline

namespace Pipeline

/-- End-to-end round-trip of the api-server pipelines: any byte stream
uploaded against a consistent store (with or without a password) is
recovered byte-for-byte by a download with the same password. -/
theorem upload_download_roundtrip {H : Type} [DecidableEq H]
    (sha : List Nat → H) (hinj : Function.Injective sha)
    (gcmSeal : List Nat → List Nat → List Nat → List Nat)
    (gcmOpen : List Nat → List Nat → List Nat → Option (List Nat))
    (pbkdf2 : String → List Nat → List Nat)
    (hpb : ∀ pw s, (pbkdf2 pw s).length = 32)
    (password : String) (salt : List Nat) (nonces : Nat → List Nat)
    (hnl : ∀ i, (nonces i).length = Crypto.NonceSize)
    (haead : ∀ k n d, gcmOpen k n (gcmSeal k n d) = some d)
    (S : List Nat) (cs : Dedup.ChunkStore H)
    (hcons : Dedup.storeConsistent sha cs) :
    ∃ meta stored cs',
      uploadHandler sha gcmSeal pbkdf2 password salt nonces S cs =
        .ok (meta, stored, cs') ∧
      downloadHandler gcmOpen pbkdf2 password meta cs' = .ok S := by
  have hkey : ∀ k, (if password = "" then (none : Option Crypto.EncryptionKey)
      else some (Crypto.DeriveKey pbkdf2 password salt)) = some k →
      Crypto.aesKeySizeOk k.key = true := by
    intro k hk
    by_cases hpw : password = ""
    · rw [if_pos hpw] at hk
      exact absurd hk (by simp)
    · rw [if_neg hpw] at hk
      injection hk with hk
      rw [← hk]
      show Crypto.aesKeySizeOk (pbkdf2 password salt) = true
      unfold Crypto.aesKeySizeOk
      rw [hpb]
      rfl
  have hshape : ∀ c ∈ Chunking.ChunkFile H sha S, c.hash = sha c.data :=
    fun c hc => (Chunking.chunkFileGo_shape H sha S.length 0 S c hc).1
  obtain ⟨hs, stored, cs', hup, _, _, hdl⟩ :=
    uploadChunks_spec sha hinj gcmSeal gcmOpen
      (if password = "" then none
        else some (Crypto.DeriveKey pbkdf2 password salt))
      nonces hkey hnl haead (Chunking.ChunkFile H sha S) 0 cs hcons hshape
  rw [Chunking.chunkFile_concat H sha S] at hdl
  refine ⟨⟨hs, password != "", if password = "" then [] else salt⟩, stored,
    cs', ?_, ?_⟩
  · unfold uploadHandler
    dsimp only
    rw [hup]
  · unfold downloadHandler
    by_cases hpw : password = ""
    · rw [if_pos hpw] at hdl
      have hencb : (password != "") = false := by
        rw [hpw]
        rfl
      rw [if_neg (by dsimp only; rw [hencb]; simp)]
      dsimp only
      rw [hencb]
      exact hdl
    · rw [if_neg hpw] at hdl
      have hencb : (password != "") = true := by
        simp only [bne_iff_ne, ne_eq]
        exact hpw
      rw [if_neg (fun hc => hpw hc.2)]
      dsimp only
      rw [hencb, if_neg hpw]
      exact hdl

end Pipeline

namespace Dedup

theorem count_zero_of_alookup_none {H β : Type} [DecidableEq H] :
    ∀ (l : List (H × β)) (k : H), alookup l k = none →
      (l.map Prod.fst).count k = 0 := by
  intro l
  induction l with
  | nil => intro k _; rfl
  | cons p rest ih =>
    intro k hl
    obtain ⟨pk, pv⟩ := p
    rw [alookup_cons] at hl
    by_cases hpk : pk = k
    · rw [if_pos hpk] at hl
      exact Option.noConfusion hl
    · rw [if_neg hpk] at hl
      simp only [List.map_cons, List.count_cons]
      rw [ih k hl]
      simp [hpk]

theorem alookup_none_of_count_zero {H β : Type} [DecidableEq H] :
    ∀ (l : List (H × β)) (k : H), (l.map Prod.fst).count k = 0 →
      alookup l k = none := by
  intro l
  induction l with
  | nil => intro k _; rfl
  | cons p rest ih =>
    intro k hc
    obtain ⟨pk, pv⟩ := p
    simp only [List.map_cons, List.count_cons] at hc
    rw [alookup_cons]
    by_cases hpk : pk = k
    · simp [hpk] at hc
    · rw [if_neg hpk]
      apply ih
      omega

theorem aupdate_map_fst {H β : Type} [DecidableEq H] :
    ∀ (l : List (H × β)) (k : H) (v : β),
      (aupdate l k v).map Prod.fst = l.map Prod.fst := by
  intro l
  induction l with
  | nil => intro k v; rfl
  | cons p rest ih =>
    intro k v
    obtain ⟨pk, pv⟩ := p
    unfold aupdate
    by_cases hpk : pk = k
    · rw [if_pos hpk]
      simp only [List.map_cons]
    · rw [if_neg hpk]
      simp only [List.map_cons]
      rw [ih]

theorem aerase_count_le {H β : Type} [DecidableEq H] :
    ∀ (l : List (H × β)) (k j : H),
      ((aerase l k).map Prod.fst).count j ≤ (l.map Prod.fst).count j := by
  intro l
  induction l with
  | nil => intro k j; exact le_rfl
  | cons p rest ih =>
    intro k j
    obtain ⟨pk, pv⟩ := p
    unfold aerase
    by_cases hpk : pk = k
    · rw [if_pos hpk]
      simp only [List.map_cons, List.count_cons]
      have := ih k j
      omega
    · rw [if_neg hpk]
      simp only [List.map_cons, List.count_cons]
      have := ih k j
      omega

theorem alookup_aerase_self {H β : Type} [DecidableEq H] :
    ∀ (l : List (H × β)) (k : H), (l.map Prod.fst).count k ≤ 1 →
      alookup (aerase l k) k = none := by
  intro l
  induction l with
  | nil => intro k _; rfl
  | cons p rest ih =>
    intro k hc
    obtain ⟨pk, pv⟩ := p
    simp only [List.map_cons, List.count_cons] at hc
    unfold aerase
    by_cases hpk : pk = k
    · rw [if_pos hpk]
      apply alookup_none_of_count_zero
      simp only [hpk, beq_self_eq_true, if_pos] at hc
      omega
    · rw [if_neg hpk]
      rw [alookup_cons, if_neg hpk]
      apply ih
      simp [hpk] at hc
      omega

/-- One fault-free `StoreChunk` on `h` advances the credit by one. -/
theorem refInv_insert {H : Type} [DecidableEq H] (h : H) (c : Nat)
    (cs : ChunkStore H) (d : List Nat) (hinv : refInv h c cs) :
    refInv h (c + 1) (StoreChunk false cs h d).2 := by
  obtain ⟨hci, hcd, hzero, hpos⟩ := hinv
  cases hc : c with
  | zero =>
    obtain ⟨hidx, hdsk⟩ := hzero hc
    have heq : (StoreChunk false cs h d).2 =
        ⟨(h, ⟨h, d.length, 1, h⟩) :: cs.index, (h, d) :: cs.disk⟩ := by
      rw [storeChunk_absent cs h d hidx]
    rw [heq]
    refine ⟨?_, ?_, by omega, ?_⟩
    · simp only [List.map_cons, List.count_cons]
      rw [count_zero_of_alookup_none cs.index h hidx]
      simp
    · simp only [List.map_cons, List.count_cons]
      rw [count_zero_of_alookup_none cs.disk h hdsk]
      simp
    · intro _
      refine ⟨⟨h, d.length, 1, h⟩, d, ?_, by norm_num, rfl, ?_⟩
      · rw [alookup_cons, if_pos rfl]
      · rw [alookup_cons, if_pos rfl]
  | succ c0 =>
    obtain ⟨md, d0, hidx, hrc, hpath, hdsk⟩ := hpos (by omega)
    have heq : (StoreChunk false cs h d).2 =
        ⟨aupdate cs.index h ({ md with refCount := md.refCount + 1 }),
          cs.disk⟩ := by
      rw [storeChunk_present cs h d md hidx]
    rw [heq]
    have hsome : (alookup cs.index h).isSome := by rw [hidx]; rfl
    refine ⟨?_, hcd, by omega, ?_⟩
    · show ((aupdate cs.index h
        ({ md with refCount := md.refCount + 1 })).map Prod.fst).count h ≤ 1
      rw [aupdate_map_fst]
      exact hci
    · intro _
      refine ⟨{ md with refCount := md.refCount + 1 }, d0, ?_, ?_, hpath, hdsk⟩
      · show alookup (aupdate cs.index h
          ({ md with refCount := md.refCount + 1 })) h = _
        rw [alookup_aupdate cs.index h _ h hsome, if_pos rfl]
      · show md.refCount + 1 = ((c0 + 1 + 1 : Nat) : Int)
        rw [hrc, hc]
        push_cast
        ring

/-- One fault-free `ReleaseChunk` on `h` with positive credit retires one
reference; at credit one it deletes the bytes and the metadata. -/
theorem refInv_release {H : Type} [DecidableEq H] (h : H) (c : Nat)
    (cs : ChunkStore H) (hcpos : 0 < c) (hinv : refInv h c cs) :
    refInv h (c - 1) (ReleaseChunk false cs h).2 := by
  obtain ⟨hci, hcd, _, hpos⟩ := hinv
  obtain ⟨md, d0, hidx, hrc, hpath, hdsk⟩ := hpos hcpos
  by_cases hone : c = 1
  · have hrc0 : md.refCount - 1 ≤ 0 := by
      rw [hrc, hone]
      norm_num
    have heq : (ReleaseChunk false cs h).2 =
        ⟨aerase cs.index h, aerase cs.disk md.storePath⟩ := by
      rw [releaseChunk_zero cs h md hidx hrc0]
    rw [heq, hpath]
    refine ⟨?_, ?_, ?_, ?_⟩
    · exact le_trans (aerase_count_le cs.index h h) hci
    · exact le_trans (aerase_count_le cs.disk h h) hcd
    · intro _
      exact ⟨alookup_aerase_self cs.index h hci,
        alookup_aerase_self cs.disk h hcd⟩
    · intro hcp
      omega
  · have hrc0 : ¬ md.refCount - 1 ≤ 0 := by
      rw [hrc]
      have : (2 : Int) ≤ (c : Int) := by
        have : 2 ≤ c := by omega
        exact_mod_cast this
      omega
    have heq : (ReleaseChunk false cs h).2 =
        ⟨aupdate cs.index h ({ md with refCount := md.refCount - 1 }),
          cs.disk⟩ := by
      rw [releaseChunk_pos cs h md hidx hrc0]
    rw [heq]
    have hsome : (alookup cs.index h).isSome := by rw [hidx]; rfl
    refine ⟨?_, hcd, by omega, ?_⟩
    · show ((aupdate cs.index h
        ({ md with refCount := md.refCount - 1 })).map Prod.fst).count h ≤ 1
      rw [aupdate_map_fst]
      exact hci
    · intro _
      refine ⟨{ md with refCount := md.refCount - 1 }, d0, ?_, ?_, hpath, hdsk⟩
      · show alookup (aupdate cs.index h
          ({ md with refCount := md.refCount - 1 })) h = _
        rw [alookup_aupdate cs.index h _ h hsome, if_pos rfl]
      · show md.refCount - 1 = ((c - 1 : Nat) : Int)
        rw [hrc]
        have h2 : 1 ≤ c := hcpos
        push_cast [h2]
        ring

/-- Running a balanced-prefix schedule from credit `c` lands on credit
`c + #inserts − #releases`, with the store invariant maintained throughout. -/
theorem runOps_inv {H : Type} [DecidableEq H] (h : H) :
    ∀ (ops : List StoreOp) (c : Nat) (cs : ChunkStore H),
      (∀ pre suf, ops = pre ++ suf →
        releaseCount pre ≤ c + insertCount pre) →
      refInv h c cs →
      refInv h (c + insertCount ops - releaseCount ops) (runOps h ops cs) := by
  intro ops
  induction ops with
  | nil =>
    intro c cs _ hinv
    simpa [runOps, insertCount, releaseCount] using hinv
  | cons op rest ih =>
    intro c cs hbal hinv
    cases op with
    | insert d =>
      have hstep := refInv_insert h c cs d hinv
      have hbal' : ∀ pre suf, rest = pre ++ suf →
          releaseCount pre ≤ (c + 1) + insertCount pre := by
        intro pre suf hsplit
        have := hbal (StoreOp.insert d :: pre) suf (by rw [hsplit]; rfl)
        simp only [insertCount, releaseCount] at this
        omega
      have := ih (c + 1) (StoreChunk false cs h d).2 hbal' hstep
      show refInv h (c + insertCount (StoreOp.insert d :: rest) -
        releaseCount (StoreOp.insert d :: rest))
        (runOps h rest (StoreChunk false cs h d).2)
      simp only [insertCount, releaseCount]
      have harith : c + (insertCount rest + 1) - releaseCount rest =
          c + 1 + insertCount rest - releaseCount rest := by omega
      rw [harith]
      exact this
    | release =>
      have hc1 : 1 ≤ c := by
        have := hbal [StoreOp.release] rest rfl
        simp only [insertCount, releaseCount] at this
        omega
      have hstep := refInv_release h c cs (by omega) hinv
      have hbal' : ∀ pre suf, rest = pre ++ suf →
          releaseCount pre ≤ (c - 1) + insertCount pre := by
        intro pre suf hsplit
        have := hbal (StoreOp.release :: pre) suf (by rw [hsplit]; rfl)
        simp only [insertCount, releaseCount] at this
        omega
      have := ih (c - 1) (ReleaseChunk false cs h).2 hbal' hstep
      show refInv h (c + insertCount (StoreOp.release :: rest) -
        releaseCount (StoreOp.release :: rest))
        (runOps h rest (ReleaseChunk false cs h).2)
      simp only [insertCount, releaseCount]
      have harith : c + insertCount rest - (releaseCount rest + 1) =
          c - 1 + insertCount rest - releaseCount rest := by omega
      rw [harith]
      exact this

/-- The empty store satisfies the zero-credit invariant. -/
theorem refInv_empty {H : Type} [DecidableEq H] (h : H) :
    refInv h 0 (emptyStore H) := by
  refine ⟨by simp [emptyStore], by simp [emptyStore], ?_, by omega⟩
  intro _
  exact ⟨rfl, rfl⟩

end Dedup

/-! ## Claims -/

/-- C2. Chunker round-trip: for every finite byte stream S, concatenating
the Data fields of the chunks produced by ChunkFile(S), in emission order,
yields exactly S — no byte lost, duplicated, or reordered, including the
bytes carried past a chosen boundary into the next read. -/
theorem claim_C2_chunker_roundtrip (H : Type) (sha : List Nat → H)
    (S : List Nat) :
    ((Chunking.ChunkFile H sha S).map Chunking.Chunk.data).flatten = S :=
  Chunking.chunkFile_concat H sha S

/-- C4. Insert atomicity on error: for every hash not present in the index,
if StoreChunk fails with an I/O error while writing the chunk bytes, the
in-memory index (indeed the whole store state) is left unchanged and the
error is surfaced to the caller. -/
theorem claim_C4_insert_atomic (H : Type) [DecidableEq H]
    (cs : Dedup.ChunkStore H) (h : H) (d : List Nat)
    (habs : Dedup.alookup cs.index h = none) :
    Dedup.StoreChunk true cs h d = (.error "write failed", cs) := by
  unfold Dedup.StoreChunk
  rw [habs]
  rfl

/-- Witness for C4 at a concrete input: the empty store, hash 0, bytes
`[1]`. -/
theorem claim_C4_insert_atomic_witness :
    Dedup.alookup (Dedup.emptyStore Nat).index 0 = none ∧
      Dedup.StoreChunk true (Dedup.emptyStore Nat) 0 [1] =
        (.error "write failed", Dedup.emptyStore Nat) :=
  ⟨rfl, claim_C4_insert_atomic Nat (Dedup.emptyStore Nat) 0 [1] rfl⟩

/-- C9. Decryption input safety: for every key and every input shorter than
the 12-byte GCM nonce, DecryptChunk returns an error instead of panicking
(the embedding is a total function; the length guard precedes the nonce
slice), and whenever the AES key length is valid the error is exactly
"ciphertext too short". -/
theorem claim_C9_decrypt_short_input
    (gcmOpen : List Nat → List Nat → List Nat → Option (List Nat))
    (k : Crypto.EncryptionKey) (c : List Nat)
    (hc : c.length < Crypto.NonceSize) :
    (∃ e, Crypto.DecryptChunk gcmOpen c k = .error e) ∧
      (Crypto.aesKeySizeOk k.key = true →
        Crypto.DecryptChunk gcmOpen c k = .error "ciphertext too short") :=
  Crypto.decryptChunk_short gcmOpen k c hc

/-- Witness for C9 at a concrete input: a 32-byte key and the empty
ciphertext. -/
theorem claim_C9_decrypt_short_input_witness :
    ([] : List Nat).length < Crypto.NonceSize ∧
      ((∃ e, Crypto.DecryptChunk (fun _ _ c => some c)
          [] ⟨List.replicate 32 0, []⟩ = .error e) ∧
        (Crypto.aesKeySizeOk (List.replicate 32 0) = true →
          Crypto.DecryptChunk (fun _ _ c => some c) [] ⟨List.replicate 32 0, []⟩ =
            .error "ciphertext too short")) :=
  ⟨by decide, claim_C9_decrypt_short_input (fun _ _ c => some c)
    ⟨List.replicate 32 0, []⟩ [] (by decide)⟩

/-- C10. GetHealthyNodes side effect and frame: each call rewrites the
Status field of every registered node — "healthy" when now − LastSeen is
below the heartbeat timeout, "offline" otherwise — leaves every other
NodeInfo field unchanged (the entry is `setStatus` of the old one), and
returns exactly the nodes whose status was set to "healthy". -/
theorem claim_C10_healthy_nodes_frame (now timeout : Int)
    (reg : List (String × Node.NodeInfo)) :
    (Node.GetHealthyNodes now timeout reg).1 = reg.map (fun q => (q.1,
        Node.setStatus (if now - q.2.lastSeen < timeout then "healthy"
          else "offline") q.2)) ∧
    (Node.GetHealthyNodes now timeout reg).2 =
      ((Node.GetHealthyNodes now timeout reg).1.map Prod.snd).filter
        (fun n => n.status == "healthy") :=
  Node.getHealthyNodes_eq now timeout reg

/-- C8 counterexample: the claim says only 64-character lowercase-hex names
are admitted as held chunks, but `loadExistingChunks` checks only the
length: a regular file named with 64 letters "z" is admitted although it is
not a hex string. -/
theorem claim_C8_counterexample :
    ¬ (("zzzzzzzzzzzzzzzzzzzzzzzzzzzzzzzzzzzzzzzzzzzzzzzzzzzzzzzzzzzzzzzz" ∈
        Node.loadExistingChunks [⟨"zzzzzzzzzzzzzzzzzzzzzzzzzzzzzzzzzzzzzzzzzzzzzzzzzzzzzzzzzzzzzzzz", false⟩]) ↔
      (∃ e ∈ ([⟨"zzzzzzzzzzzzzzzzzzzzzzzzzzzzzzzzzzzzzzzzzzzzzzzzzzzzzzzzzzzzzzzz", false⟩] : List Node.WalkEntry),
        e.isDir = false ∧ Node.specHexName e.name = true ∧
          e.name = "zzzzzzzzzzzzzzzzzzzzzzzzzzzzzzzzzzzzzzzzzzzzzzzzzzzzzzzzzzzzzzzz")) := by
  decide

/-- C8 (amended). Startup chunk recovery: after a storage node starts, its
held-chunk set contains exactly those regular files under its storage root
whose file name is 64 characters long — the hex-ness of the characters is
not checked. -/
theorem claim_C8_recovery_by_length (entries : List Node.WalkEntry)
    (s : String) :
    s ∈ Node.loadExistingChunks entries ↔
      ∃ e ∈ entries, e.isDir = false ∧ e.name.length = 64 ∧ e.name = s :=
  Node.loadExistingChunks_mem entries s

/-- C7 counterexample: prepending one byte to an all-`0xFF` stream of
length `3·MAX + 2` moves the third chunk boundary as well (every maximal
cut shifts by one content position), refuting "at most the first two chunk
boundaries change". -/
theorem claim_C7_counterexample :
    ¬ (List.drop 2 (Chunking.chunkBoundaries Nat (fun _ => 0)
          (List.replicate (3 * Chunking.MaxChunkSize + 2) 255)) =
        (List.drop 2 (Chunking.chunkBoundaries Nat (fun _ => 0)
          (0 :: List.replicate (3 * Chunking.MaxChunkSize + 2) 255))).map
          (· - 1)) := by
  have hMp := Chunking.maxChunkSize_pos
  rw [Chunking.chunkBoundaries_ff_base, Chunking.chunkBoundaries_ff_prepended]
  show ¬ ([3 * Chunking.MaxChunkSize, 3 * Chunking.MaxChunkSize + 2] =
    ([3 * Chunking.MaxChunkSize, 3 * Chunking.MaxChunkSize + 3] :
      List Nat).map (· - 1))
  simp only [List.map_cons, List.map_nil]
  intro hcontra
  injection hcontra with h1 _
  omega

/-- C7 (amended). Resynchronization instead of a two-boundary bound: if any
boundary of the prepended stream falls at the same content position as a
boundary of `S`, then every later boundary of the two chunkings agrees
(shifted by the prepended byte).  Without such a common cut — e.g. streams
whose chunks are all forced to `MaxChunkSize` — every boundary may move. -/
theorem claim_C7_shift_resync (H : Type) (sha : List Nat → H) (S : List Nat)
    (b : Nat) (p : Nat) (hp : p ∈ Chunking.chunkBoundaries H sha S)
    (hp' : p + 1 ∈ Chunking.chunkBoundaries H sha (b :: S)) :
    ∀ q, p < q → (q ∈ Chunking.chunkBoundaries H sha S ↔
      q + 1 ∈ Chunking.chunkBoundaries H sha (b :: S)) :=
  Chunking.chunkBoundaries_resync H sha S b p hp hp'

/-- Witness for the amended C7 at a concrete input: `S = [1,2,3]` and a
prepended zero byte share the final boundary. -/
theorem claim_C7_shift_resync_witness :
    3 ∈ Chunking.chunkBoundaries Nat (fun _ => 0) [1, 2, 3] ∧
    4 ∈ Chunking.chunkBoundaries Nat (fun _ => 0) (0 :: [1, 2, 3]) ∧
    (∀ q, 3 < q → (q ∈ Chunking.chunkBoundaries Nat (fun _ => 0) [1, 2, 3] ↔
      q + 1 ∈ Chunking.chunkBoundaries Nat (fun _ => 0) (0 :: [1, 2, 3]))) :=
  ⟨by decide, by decide,
    claim_C7_shift_resync Nat (fun _ => 0) [1, 2, 3] 0 3 (by decide) (by decide)⟩

/-- C6 counterexample: on an empty ring the claim's "all physical nodes are
returned, R capped silently, no error" fails — `GetNodes` returns the error
"no nodes available" instead of a (empty) node list. -/
theorem claim_C6_counterexample :
    ¬ ∃ l : List String,
      Node.GetNodes ⟨fun _ => "", [], []⟩ 0 3 = .ok (some l) := by
  rintro ⟨l, hl⟩
  simp [Node.GetNodes] at hl

/-- C6 (amended). Replica walk on a nonempty well-formed ring: `GetNodes`
terminates and returns pairwise-distinct physical node IDs; the list has
exactly `min R |nodes|` entries — `R` of them when the ring holds at least
`R` physical nodes, and all physical nodes when it holds fewer (the cap is
silent).  Well-formedness: the node set is duplicate-free and coincides
with the node IDs readable off the ring slots. -/
theorem claim_C6_replica_walk (ch : Node.ConsistentHash) (p R : Nat)
    (hne : ch.nodes ≠ []) (hnd : ch.nodes.Nodup)
    (h1 : ∀ nd ∈ ch.nodes, nd ∈ Node.ringVisit ch)
    (h2 : ∀ x ∈ Node.ringVisit ch, x ∈ ch.nodes) :
    ∃ l, Node.GetNodes ch p R = .ok (some l) ∧ l.Nodup ∧
      l.length = min R ch.nodes.length ∧ (∀ x ∈ l, x ∈ ch.nodes) ∧
      (ch.nodes.length ≤ R → ∀ nd ∈ ch.nodes, nd ∈ l) :=
  Node.getNodes_spec ch p R hne hnd h1 h2

/-- Witness for the amended C6 at a concrete ring: two physical nodes on
three slots, `R = 5`. -/
theorem claim_C6_replica_walk_witness :
    ((["a", "b"] : List String) ≠ [] ∧ (["a", "b"] : List String).Nodup ∧
      (∀ nd ∈ (["a", "b"] : List String), nd ∈ Node.ringVisit
        ⟨fun pos => if pos = 20 then "b" else "a", [10, 20, 30], ["a", "b"]⟩) ∧
      (∀ x ∈ Node.ringVisit
        ⟨fun pos => if pos = 20 then "b" else "a", [10, 20, 30], ["a", "b"]⟩,
        x ∈ (["a", "b"] : List String))) ∧
    (∃ l, Node.GetNodes
        ⟨fun pos => if pos = 20 then "b" else "a", [10, 20, 30], ["a", "b"]⟩
        15 5 = .ok (some l) ∧ l.Nodup ∧
      l.length = min 5 (["a", "b"] : List String).length ∧
      (∀ x ∈ l, x ∈ (["a", "b"] : List String)) ∧
      ((["a", "b"] : List String).length ≤ 5 →
        ∀ nd ∈ (["a", "b"] : List String), nd ∈ l)) :=
  ⟨⟨by decide, by decide, by decide, by decide⟩,
    claim_C6_replica_walk
      ⟨fun pos => if pos = 20 then "b" else "a", [10, 20, 30], ["a", "b"]⟩
      15 5 (by decide) (by decide) (by decide) (by decide)⟩

/-- C5. Refcount balance and GC: for any schedule of fault-free
StoreChunk/ReleaseChunk calls on a hash `h` in which releases never
outnumber prior inserts, after any prefix the externally observable
refcount equals inserts − releases (hence is never negative), and as soon
as the two balance the chunk's bytes are gone from disk and its metadata
gone from the index. -/
theorem claim_C5_refcount_balance (H : Type) [DecidableEq H] (h : H)
    (ops pre suf : List Dedup.StoreOp) (hsplit : ops = pre ++ suf)
    (hbal : ∀ n, n ≤ ops.length →
      Dedup.releaseCount (ops.take n) ≤ Dedup.insertCount (ops.take n)) :
    Dedup.releaseCount pre ≤ Dedup.insertCount pre ∧
    (Dedup.releaseCount pre < Dedup.insertCount pre →
      ∃ md, Dedup.alookup (Dedup.runOps h pre (Dedup.emptyStore H)).index h =
          some md ∧
        md.refCount =
          ((Dedup.insertCount pre - Dedup.releaseCount pre : Nat) : Int)) ∧
    (Dedup.releaseCount pre = Dedup.insertCount pre →
      Dedup.alookup (Dedup.runOps h pre (Dedup.emptyStore H)).index h = none ∧
      Dedup.alookup (Dedup.runOps h pre (Dedup.emptyStore H)).disk h = none) := by
  have hbal2 : ∀ pre2 suf2, pre = pre2 ++ suf2 →
      Dedup.releaseCount pre2 ≤ 0 + Dedup.insertCount pre2 := by
    intro pre2 suf2 hs2
    have hlen2 : pre2.length ≤ ops.length := by
      rw [hsplit, hs2]
      simp only [List.length_append]
      omega
    have htake : ops.take pre2.length = pre2 := by
      rw [hsplit, hs2, List.append_assoc]
      exact List.take_left pre2 (suf2 ++ suf)
    have := hbal pre2.length hlen2
    rw [htake] at this
    omega
  have hri := hbal2 pre [] (by simp)
  have hinv := Dedup.runOps_inv h pre 0 (Dedup.emptyStore H) hbal2
    (Dedup.refInv_empty h)
  obtain ⟨_, _, hzero, hpos⟩ := hinv
  refine ⟨by omega, ?_, ?_⟩
  · intro hlt
    obtain ⟨md, d0, hmd, hrc, _, _⟩ := hpos (by omega)
    refine ⟨md, hmd, ?_⟩
    rw [hrc]
    congr 1
    omega
  · intro heq
    exact hzero (by omega)

/-- Witness for C5 at a concrete schedule: two inserts then one release on
hash 0, leaving refcount 1. -/
theorem claim_C5_refcount_balance_witness :
    (([Dedup.StoreOp.insert [7], Dedup.StoreOp.insert [7],
        Dedup.StoreOp.release] : List Dedup.StoreOp) =
      [Dedup.StoreOp.insert [7], Dedup.StoreOp.insert [7],
        Dedup.StoreOp.release] ++ [] ∧
      (∀ n, n ≤ ([Dedup.StoreOp.insert [7], Dedup.StoreOp.insert [7],
          Dedup.StoreOp.release] : List Dedup.StoreOp).length →
        Dedup.releaseCount (([Dedup.StoreOp.insert [7],
            Dedup.StoreOp.insert [7],
            Dedup.StoreOp.release] : List Dedup.StoreOp).take n) ≤
          Dedup.insertCount (([Dedup.StoreOp.insert [7],
            Dedup.StoreOp.insert [7],
            Dedup.StoreOp.release] : List Dedup.StoreOp).take n))) ∧
    (Dedup.releaseCount [Dedup.StoreOp.insert [7], Dedup.StoreOp.insert [7],
        Dedup.StoreOp.release] ≤
      Dedup.insertCount [Dedup.StoreOp.insert [7], Dedup.StoreOp.insert [7],
        Dedup.StoreOp.release] ∧
      (Dedup.releaseCount [Dedup.StoreOp.insert [7], Dedup.StoreOp.insert [7],
          Dedup.StoreOp.release] <
        Dedup.insertCount [Dedup.StoreOp.insert [7], Dedup.StoreOp.insert [7],
          Dedup.StoreOp.release] →
        ∃ md, Dedup.alookup (Dedup.runOps (0 : Nat)
            [Dedup.StoreOp.insert [7], Dedup.StoreOp.insert [7],
              Dedup.StoreOp.release] (Dedup.emptyStore Nat)).index 0 =
            some md ∧
          md.refCount = ((Dedup.insertCount [Dedup.StoreOp.insert [7],
              Dedup.StoreOp.insert [7], Dedup.StoreOp.release] -
            Dedup.releaseCount [Dedup.StoreOp.insert [7],
              Dedup.StoreOp.insert [7], Dedup.StoreOp.release] : Nat) :
            Int)) ∧
      (Dedup.releaseCount [Dedup.StoreOp.insert [7], Dedup.StoreOp.insert [7],
          Dedup.StoreOp.release] =
        Dedup.insertCount [Dedup.StoreOp.insert [7], Dedup.StoreOp.insert [7],
          Dedup.StoreOp.release] →
        Dedup.alookup (Dedup.runOps (0 : Nat) [Dedup.StoreOp.insert [7],
            Dedup.StoreOp.insert [7], Dedup.StoreOp.release]
            (Dedup.emptyStore Nat)).index 0 = none ∧
        Dedup.alookup (Dedup.runOps (0 : Nat) [Dedup.StoreOp.insert [7],
            Dedup.StoreOp.insert [7], Dedup.StoreOp.release]
            (Dedup.emptyStore Nat)).disk 0 = none)) :=
  ⟨⟨by simp, by decide⟩,
    claim_C5_refcount_balance Nat 0
      [Dedup.StoreOp.insert [7], Dedup.StoreOp.insert [7],
        Dedup.StoreOp.release]
      [Dedup.StoreOp.insert [7], Dedup.StoreOp.insert [7],
        Dedup.StoreOp.release] [] (by simp) (by decide)⟩

/-- C1. Upload/download round-trip: for every finite byte sequence `F`
uploaded through the upload pipeline against a consistent store — with or
without a password — a download of the resulting metadata with the same
password returns exactly `F`.  SHA-256 is idealized as an injective digest,
and Go's GCM/PBKDF2 primitives as parameters satisfying their contracts
(AEAD round-trip; 32-byte derived keys; 12-byte nonces). -/
theorem claim_C1_upload_download_roundtrip (H : Type) [DecidableEq H]
    (sha : List Nat → H) (hinj : Function.Injective sha)
    (gcmSeal : List Nat → List Nat → List Nat → List Nat)
    (gcmOpen : List Nat → List Nat → List Nat → Option (List Nat))
    (pbkdf2 : String → List Nat → List Nat)
    (hpb : ∀ pw s, (pbkdf2 pw s).length = 32)
    (password : String) (salt : List Nat) (nonces : Nat → List Nat)
    (hnl : ∀ i, (nonces i).length = Crypto.NonceSize)
    (haead : ∀ k n d, gcmOpen k n (gcmSeal k n d) = some d)
    (F : List Nat) (cs : Dedup.ChunkStore H)
    (hcons : Dedup.storeConsistent sha cs) :
    ∃ meta stored cs',
      Pipeline.uploadHandler sha gcmSeal pbkdf2 password salt nonces F cs =
        .ok (meta, stored, cs') ∧
      Pipeline.downloadHandler gcmOpen pbkdf2 password meta cs' = .ok F :=
  Pipeline.upload_download_roundtrip sha hinj gcmSeal gcmOpen pbkdf2 hpb
    password salt nonces hnl haead F cs hcons

/-- Witness for C1 at a concrete input: `F = [1,2,3]` uploaded with
password "pw" into the empty store, with identity digest and dummy
seal/open primitives satisfying the AEAD contract. -/
theorem claim_C1_upload_download_roundtrip_witness :
    (Function.Injective (id : List Nat → List Nat) ∧
      (∀ pw s, ((fun (_ : String) (_ : List Nat) => List.replicate 32 0) pw
        s).length = 32) ∧
      (∀ i, ((fun (_ : Nat) => List.replicate 12 0) i).length =
        Crypto.NonceSize) ∧
      (∀ k n d, (fun (_ _ c : List Nat) => some c) k n
        ((fun (_ _ d : List Nat) => d) k n d) = some d) ∧
      Dedup.storeConsistent (id : List Nat → List Nat)
        (Dedup.emptyStore (List Nat))) ∧
    (∃ meta stored cs',
      Pipeline.uploadHandler (id : List Nat → List Nat)
        (fun _ _ d => d) (fun _ _ => List.replicate 32 0) "pw" []
        (fun _ => List.replicate 12 0) [1, 2, 3]
        (Dedup.emptyStore (List Nat)) = .ok (meta, stored, cs') ∧
      Pipeline.downloadHandler (fun _ _ c => some c)
        (fun _ _ => List.replicate 32 0) "pw" meta cs' = .ok [1, 2, 3]) :=
  ⟨⟨Function.injective_id, fun _ _ => rfl, fun _ => rfl,
    fun _ _ _ => rfl, Dedup.storeConsistent_empty _⟩,
    claim_C1_upload_download_roundtrip (List Nat) id Function.injective_id
      (fun _ _ d => d) (fun _ _ c => some c)
      (fun _ _ => List.replicate 32 0) (fun _ _ => rfl) "pw" []
      (fun _ => List.replicate 12 0) (fun _ => rfl)
      (fun _ _ _ => rfl) [1, 2, 3] (Dedup.emptyStore (List Nat))
      (Dedup.storeConsistent_empty _)⟩

/-- Step equation for the per-chunk upload loop with no encryption key:
the head chunk is stored as-is under its recorded hash. -/
theorem Pipeline.uploadChunks_plain_cons {H : Type} [DecidableEq H]
    {sha : List Nat → H} {gcmSeal : List Nat → List Nat → List Nat → List Nat}
    {nonces : Nat → List Nat} {c : Chunking.Chunk H}
    {rest : List (Chunking.Chunk H)} {i : Nat}
    {cs cs' cs'' : Dedup.ChunkStore H} {p : H} {isNew : Bool} {hs : List H}
    {stored : Nat}
    (hstore : Dedup.StoreChunk false cs c.hash c.data = (.ok (p, isNew), cs'))
    (hrest : uploadChunks sha gcmSeal none nonces rest (i + 1) cs' =
      .ok (hs, stored, cs'')) :
    uploadChunks sha gcmSeal none nonces (c :: rest) i cs =
      .ok (c.hash :: hs, (if isNew then 1 else 0) + stored, cs'') := by
  unfold uploadChunks
  dsimp only
  rw [hstore]
  dsimp only
  rw [hrest]

/-- Base equation for the per-chunk upload loop. -/
theorem Pipeline.uploadChunks_plain_nil {H : Type} [DecidableEq H]
    {sha : List Nat → H} {gcmSeal : List Nat → List Nat → List Nat → List Nat}
    {nonces : Nat → List Nat} {i : Nat} {cs : Dedup.ChunkStore H} :
    uploadChunks sha gcmSeal none nonces [] i cs = .ok ([], 0, cs) := rfl

/-- `uploadHandler` with an empty password derives no key and records an
unencrypted file. -/
theorem Pipeline.uploadHandler_plain {H : Type} [DecidableEq H]
    {sha : List Nat → H} {gcmSeal : List Nat → List Nat → List Nat → List Nat}
    (pbkdf2 : String → List Nat → List Nat) {nonces : Nat → List Nat}
    {S : List Nat} {cs cs' : Dedup.ChunkStore H} {hs : List H} {stored : Nat}
    (h : uploadChunks sha gcmSeal none nonces (Chunking.ChunkFile H sha S)
      0 cs = .ok (hs, stored, cs')) :
    uploadHandler sha gcmSeal pbkdf2 "" [] nonces S cs =
      .ok (⟨hs, false, []⟩, stored, cs') := by
  unfold uploadHandler
  dsimp only
  have hif : (if ("" : String) = "" then (none : Option Crypto.EncryptionKey)
      else some (Crypto.DeriveKey pbkdf2 "" [])) = none := if_pos rfl
  rw [hif, h]
  rfl

/-- C3 is a code bug: uploading the same file twice without a password does
produce 0 new chunks on the second upload, but the stats operation then
reports `space_saved` as `totalSize * (totalRefs - uniqueChunks)` — twice
the file size for this input — instead of the claimed `size(F)` (the README
formula `Σ sizeᵢ * (refᵢ - 1)`).  Concretely, an 8388609-byte all-`0xFF`
file chunks into sizes 8388608 and 1, each with refcount 2 after the second
upload, and `space_saved = 16777218 ≠ 8388609 = size(F)`. -/
theorem claim_C3_dedup_stats_space_saved :
    ∃ meta cs1 cs2,
      Pipeline.uploadHandler List.length (fun _ _ d => d) (fun _ _ => [])
        "" [] (fun _ => [])
        (List.replicate (Chunking.MaxChunkSize + 1) 255)
        (Dedup.emptyStore Nat) = .ok (meta, 2, cs1) ∧
      Pipeline.uploadHandler List.length (fun _ _ d => d) (fun _ _ => [])
        "" [] (fun _ => [])
        (List.replicate (Chunking.MaxChunkSize + 1) 255) cs1 =
        .ok (meta, 0, cs2) ∧
      (Dedup.GetStats cs2).spaceSaved =
        2 * ((List.replicate (Chunking.MaxChunkSize + 1) 255 :
          List Nat).length : Int) ∧
      (Dedup.GetStats cs2).spaceSaved ≠
        ((List.replicate (Chunking.MaxChunkSize + 1) 255 :
          List Nat).length : Int) := by
  have hchunks : Chunking.ChunkFile Nat List.length
      (List.replicate (Chunking.MaxChunkSize + 1) 255) =
      [⟨List.replicate Chunking.MaxChunkSize 255, Chunking.MaxChunkSize,
        Chunking.MaxChunkSize, 0⟩,
       ⟨[255], 1, 1, Chunking.MaxChunkSize⟩] := by
    rw [Chunking.chunkFile_ff_two_chunks]
    simp only [List.length_replicate, List.length_singleton]
  have hs1 := Dedup.storeChunk_absent (Dedup.emptyStore Nat)
    Chunking.MaxChunkSize (List.replicate Chunking.MaxChunkSize 255) rfl
  rw [List.length_replicate] at hs1
  dsimp only [Dedup.emptyStore] at hs1
  have hs2 := Dedup.storeChunk_absent
    (⟨[(Chunking.MaxChunkSize, ⟨Chunking.MaxChunkSize, Chunking.MaxChunkSize,
        1, Chunking.MaxChunkSize⟩)],
      [(Chunking.MaxChunkSize, List.replicate Chunking.MaxChunkSize 255)]⟩ :
      Dedup.ChunkStore Nat) 1 [255] (by decide)
  rw [List.length_singleton] at hs2
  dsimp only at hs2
  have htail1 : Pipeline.uploadChunks List.length (fun _ _ d => d) none
      (fun _ => []) [⟨[255], 1, 1, Chunking.MaxChunkSize⟩] 1
      (⟨[(Chunking.MaxChunkSize, ⟨Chunking.MaxChunkSize,
          Chunking.MaxChunkSize, 1, Chunking.MaxChunkSize⟩)],
        [(Chunking.MaxChunkSize, List.replicate Chunking.MaxChunkSize 255)]⟩ :
        Dedup.ChunkStore Nat) =
      .ok ([1], (if true then 1 else 0) + 0,
        ⟨[(1, ⟨1, 1, 1, 1⟩),
          (Chunking.MaxChunkSize, ⟨Chunking.MaxChunkSize,
            Chunking.MaxChunkSize, 1, Chunking.MaxChunkSize⟩)],
         [(1, [255]),
          (Chunking.MaxChunkSize,
            List.replicate Chunking.MaxChunkSize 255)]⟩) :=
    Pipeline.uploadChunks_plain_cons hs2 Pipeline.uploadChunks_plain_nil
  have hrun1 : Pipeline.uploadChunks List.length (fun _ _ d => d) none
      (fun _ => [])
      [⟨List.replicate Chunking.MaxChunkSize 255, Chunking.MaxChunkSize,
        Chunking.MaxChunkSize, 0⟩, ⟨[255], 1, 1, Chunking.MaxChunkSize⟩] 0
      (Dedup.emptyStore Nat) =
      .ok ([Chunking.MaxChunkSize, 1],
        (if true then 1 else 0) + ((if true then 1 else 0) + 0),
        ⟨[(1, ⟨1, 1, 1, 1⟩),
          (Chunking.MaxChunkSize, ⟨Chunking.MaxChunkSize,
            Chunking.MaxChunkSize, 1, Chunking.MaxChunkSize⟩)],
         [(1, [255]),
          (Chunking.MaxChunkSize,
            List.replicate Chunking.MaxChunkSize 255)]⟩) :=
    Pipeline.uploadChunks_plain_cons hs1 htail1
  rw [← hchunks] at hrun1
  have hH1 := Pipeline.uploadHandler_plain (fun _ _ => []) hrun1
  have hlk3 : Dedup.alookup
      ([(1, ⟨1, 1, 1, 1⟩),
        (Chunking.MaxChunkSize, ⟨Chunking.MaxChunkSize,
          Chunking.MaxChunkSize, 1, Chunking.MaxChunkSize⟩)] :
        List (Nat × Dedup.ChunkMetadata Nat)) Chunking.MaxChunkSize =
      some ⟨Chunking.MaxChunkSize, Chunking.MaxChunkSize, 1,
        Chunking.MaxChunkSize⟩ := by decide
  have hau3 : Dedup.aupdate
      ([(1, ⟨1, 1, 1, 1⟩),
        (Chunking.MaxChunkSize, ⟨Chunking.MaxChunkSize,
          Chunking.MaxChunkSize, 1, Chunking.MaxChunkSize⟩)] :
        List (Nat × Dedup.ChunkMetadata Nat)) Chunking.MaxChunkSize
      ⟨Chunking.MaxChunkSize, Chunking.MaxChunkSize, 1 + 1,
        Chunking.MaxChunkSize⟩ =
      [(1, ⟨1, 1, 1, 1⟩),
       (Chunking.MaxChunkSize, ⟨Chunking.MaxChunkSize, Chunking.MaxChunkSize,
         2, Chunking.MaxChunkSize⟩)] := by decide
  have hs3 : Dedup.StoreChunk false
      (⟨[(1, ⟨1, 1, 1, 1⟩),
          (Chunking.MaxChunkSize, ⟨Chunking.MaxChunkSize,
            Chunking.MaxChunkSize, 1, Chunking.MaxChunkSize⟩)],
        [(1, [255]),
          (Chunking.MaxChunkSize,
            List.replicate Chunking.MaxChunkSize 255)]⟩ :
        Dedup.ChunkStore Nat) Chunking.MaxChunkSize
      (List.replicate Chunking.MaxChunkSize 255) =
      (.ok (Chunking.MaxChunkSize, false),
        ⟨[(1, ⟨1, 1, 1, 1⟩),
          (Chunking.MaxChunkSize, ⟨Chunking.MaxChunkSize,
            Chunking.MaxChunkSize, 2, Chunking.MaxChunkSize⟩)],
         [(1, [255]),
          (Chunking.MaxChunkSize,
            List.replicate Chunking.MaxChunkSize 255)]⟩) := by
    rw [Dedup.storeChunk_present _ _ _ _ hlk3]
    dsimp only
    rw [hau3]
  have hlk4 : Dedup.alookup
      ([(1, ⟨1, 1, 1, 1⟩),
        (Chunking.MaxChunkSize, ⟨Chunking.MaxChunkSize,
          Chunking.MaxChunkSize, 2, Chunking.MaxChunkSize⟩)] :
        List (Nat × Dedup.ChunkMetadata Nat)) 1 =
      some ⟨1, 1, 1, 1⟩ := by decide
  have hau4 : Dedup.aupdate
      ([(1, ⟨1, 1, 1, 1⟩),
        (Chunking.MaxChunkSize, ⟨Chunking.MaxChunkSize,
          Chunking.MaxChunkSize, 2, Chunking.MaxChunkSize⟩)] :
        List (Nat × Dedup.ChunkMetadata Nat)) 1 ⟨1, 1, 1 + 1, 1⟩ =
      [(1, ⟨1, 1, 2, 1⟩),
       (Chunking.MaxChunkSize, ⟨Chunking.MaxChunkSize, Chunking.MaxChunkSize,
         2, Chunking.MaxChunkSize⟩)] := by decide
  have hs4 : Dedup.StoreChunk false
      (⟨[(1, ⟨1, 1, 1, 1⟩),
          (Chunking.MaxChunkSize, ⟨Chunking.MaxChunkSize,
            Chunking.MaxChunkSize, 2, Chunking.MaxChunkSize⟩)],
        [(1, [255]),
          (Chunking.MaxChunkSize,
            List.replicate Chunking.MaxChunkSize 255)]⟩ :
        Dedup.ChunkStore Nat) 1 [255] =
      (.ok (1, false),
        ⟨[(1, ⟨1, 1, 2, 1⟩),
          (Chunking.MaxChunkSize, ⟨Chunking.MaxChunkSize,
            Chunking.MaxChunkSize, 2, Chunking.MaxChunkSize⟩)],
         [(1, [255]),
          (Chunking.MaxChunkSize,
            List.replicate Chunking.MaxChunkSize 255)]⟩) := by
    rw [Dedup.storeChunk_present _ _ _ _ hlk4]
    dsimp only
    rw [hau4]
  have htail2 : Pipeline.uploadChunks List.length (fun _ _ d => d) none
      (fun _ => []) [⟨[255], 1, 1, Chunking.MaxChunkSize⟩] 1
      (⟨[(1, ⟨1, 1, 1, 1⟩),
          (Chunking.MaxChunkSize, ⟨Chunking.MaxChunkSize,
            Chunking.MaxChunkSize, 2, Chunking.MaxChunkSize⟩)],
        [(1, [255]),
          (Chunking.MaxChunkSize,
            List.replicate Chunking.MaxChunkSize 255)]⟩ :
        Dedup.ChunkStore Nat) =
      .ok ([1], (if false then 1 else 0) + 0,
        ⟨[(1, ⟨1, 1, 2, 1⟩),
          (Chunking.MaxChunkSize, ⟨Chunking.MaxChunkSize,
            Chunking.MaxChunkSize, 2, Chunking.MaxChunkSize⟩)],
         [(1, [255]),
          (Chunking.MaxChunkSize,
            List.replicate Chunking.MaxChunkSize 255)]⟩) :=
    Pipeline.uploadChunks_plain_cons hs4 Pipeline.uploadChunks_plain_nil
  have hrun2 : Pipeline.uploadChunks List.length (fun _ _ d => d) none
      (fun _ => [])
      [⟨List.replicate Chunking.MaxChunkSize 255, Chunking.MaxChunkSize,
        Chunking.MaxChunkSize, 0⟩, ⟨[255], 1, 1, Chunking.MaxChunkSize⟩] 0
      (⟨[(1, ⟨1, 1, 1, 1⟩),
          (Chunking.MaxChunkSize, ⟨Chunking.MaxChunkSize,
            Chunking.MaxChunkSize, 1, Chunking.MaxChunkSize⟩)],
        [(1, [255]),
          (Chunking.MaxChunkSize,
            List.replicate Chunking.MaxChunkSize 255)]⟩ :
        Dedup.ChunkStore Nat) =
      .ok ([Chunking.MaxChunkSize, 1],
        (if false then 1 else 0) + ((if false then 1 else 0) + 0),
        ⟨[(1, ⟨1, 1, 2, 1⟩),
          (Chunking.MaxChunkSize, ⟨Chunking.MaxChunkSize,
            Chunking.MaxChunkSize, 2, Chunking.MaxChunkSize⟩)],
         [(1, [255]),
          (Chunking.MaxChunkSize,
            List.replicate Chunking.MaxChunkSize 255)]⟩) :=
    Pipeline.uploadChunks_plain_cons hs3 htail2
  rw [← hchunks] at hrun2
  have hH2 := Pipeline.uploadHandler_plain (fun _ _ => []) hrun2
  refine ⟨⟨[Chunking.MaxChunkSize, 1], false, []⟩, _, _, hH1, hH2, ?_, ?_⟩
  · rw [List.length_replicate]
    decide
  · rw [List.length_replicate]
    decide
